import Mathlib

/-!
Verification of the knowledge-base construction / retrieval engine and of the
QA-merge tool of this repository, against a shallow embedding of the source.

Strings are modelled as `List Char` (UTF-16 / UTF-32 ordering differences only
matter beyond the basic multilingual plane and are irrelevant here).  IEEE
doubles are modelled as exact numbers: the constants `1.8` and `0.12` of the
source are represented by the rationals `9/5` and `12/100`; in the ranges the
program reaches (`chunkSizeChars ≤ 3200`, paragraph lengths realistic) the
double computation agrees with the exact one.  Similarity scores are modelled
over `ℝ` (for the cosine) and abstractly over `ℚ` (for ranking).
-/

namespace Albabot

abbrev Str := List Char

/-! ## Character classes (regex classes of server.js) -/

/-- The class `[ \t]` used by the whitespace regexes of `normalizeWhitespace`. -/
def isHws (c : Char) : Bool := c == ' ' || c == '\t'

/-- JavaScript whitespace (`\s`, `String.prototype.trim`), restricted to the
ASCII whitespace characters; exotic Unicode space characters are not modelled. -/
def isJsWs (c : Char) : Bool :=
  c == ' ' || c == '\t' || c == '\n' || c == '\r' || c == '\x0b' || c == '\x0c'

/-- `String.prototype.trim`. -/
def trim (s : Str) : Str :=
  ((s.dropWhile isJsWs).reverse.dropWhile isJsWs).reverse

/-! ## Decimal rendering of numbers (JS template interpolation of a number) -/

def natStrAux : Nat → Nat → Str
  | 0, _ => []
  | fuel + 1, n =>
    if n < 10 then [Nat.digitChar n]
    else natStrAux fuel (n / 10) ++ [Nat.digitChar (n % 10)]

/-- Decimal representation of a natural number, as produced by JS string
interpolation of an integer-valued number. -/
def natStr (n : Nat) : Str := natStrAux (n + 1) n

/-! ## normalizeWhitespace (server.js lines 40-47)

Each `.replace` pass is translated as a single left-to-right scan.  The scans
are equivalent to the global regex replaces: matches of these patterns cannot
overlap, and replacement text never takes part in a later match of the same
pass. -/

/-- Pass 1: `.replace(/\r\n/g, "\n")`. -/
def crlfToNl : Str → Str
  | [] => []
  | [c] => [c]
  | c :: d :: rest =>
    if c = '\r' ∧ d = '\n' then '\n' :: crlfToNl rest
    else c :: crlfToNl (d :: rest)

/-- Does this tail begin (through horizontal whitespace) with a newline?
A `[ \t]` character is deleted by pass 2 exactly when this holds of its tail. -/
def leadsToNl (l : Str) : Bool := (l.dropWhile isHws).head? == some '\n'

/-- Pass 2: `.replace(/[ \t]+\n/g, "\n")`: every horizontal-whitespace
character that is separated from a following newline only by horizontal
whitespace is removed. -/
def stripWsNl : Str → Str
  | [] => []
  | c :: rest =>
    if isHws c && leadsToNl rest then stripWsNl rest else c :: stripWsNl rest

/-- At the end of a newline run of length `run`, pass 3 emits `min run 2`
newlines. -/
def nlOut (run : Nat) : Str := List.replicate (min run 2) '\n'

/-- Pass 3 worker: `run` is the number of newlines read immediately before the
current position. -/
def collapseNlsAux (run : Nat) : Str → Str
  | [] => nlOut run
  | c :: rest =>
    if c == '\n' then collapseNlsAux (run + 1) rest
    else nlOut run ++ c :: collapseNlsAux 0 rest

/-- Pass 3: `.replace(/\n{3,}/g, "\n\n")`. -/
def collapseNls (s : Str) : Str := collapseNlsAux 0 s

/-- At the end of a horizontal-whitespace run `run`, pass 4 emits a single
space if the run has length at least two, and the run itself otherwise
(a lone tab stays a tab). -/
def hwsOut (run : Str) : Str := if 2 ≤ run.length then [' '] else run

/-- Pass 4 worker: `run` is the horizontal whitespace read immediately before
the current position, in order. -/
def collapseHwsAux (run : Str) : Str → Str
  | [] => hwsOut run
  | c :: rest =>
    if isHws c then collapseHwsAux (run ++ [c]) rest
    else hwsOut run ++ c :: collapseHwsAux [] rest

/-- Pass 4: `.replace(/[ \t]{2,}/g, " ")`. -/
def collapseHws (s : Str) : Str := collapseHwsAux [] s

/-- `normalizeWhitespace` of server.js: the four replace passes then `trim`. -/
def normalizeWhitespace (s : Str) : Str :=
  trim (collapseHws (collapseNls (stripWsNl (crlfToNl s))))

/-! ## Paragraph split: `.split(/\n\s*\n/)` (server.js line 62)

Single-pass state machine.  A separator match starts at a newline; `\s*` is
greedy with backtracking, so the match extends to the last newline of the
whitespace run that follows.  State `none`: not inside a candidate separator.
State `some (ws, seen2)`: a newline has been read; `ws` holds (reversed) the
non-newline whitespace read since the most recent newline, and `seen2` records
whether a second newline has been seen (i.e. a separator match is complete up
to the most recent newline). -/
def spAux (st : Option (Str × Bool)) (acc : Str) : Str → List Str
  | [] =>
    match st with
    | none => [acc.reverse]
    | some (ws, true) => [acc.reverse, ws.reverse]
    | some (ws, false) => [(ws ++ '\n' :: acc).reverse]
  | c :: rest =>
    match st with
    | none =>
      if c == '\n' then spAux (some ([], false)) acc rest
      else spAux none (c :: acc) rest
    | some (ws, s2) =>
      if c == '\n' then spAux (some ([], true)) acc rest
      else if isJsWs c then spAux (some (c :: ws, s2)) acc rest
      else if s2 then acc.reverse :: spAux none (c :: ws) rest
      else spAux none (c :: ws ++ '\n' :: acc) rest

/-- `text.split(/\n\s*\n/)`. -/
def splitParas (s : Str) : List Str := spAux none [] s

/-! ## Chunker: `chunkByParagraphs` (server.js lines 61-90) -/

/-- The `"\n\n"` separator used when concatenating paragraphs. -/
def paraSep : Str := ['\n', '\n']

/-- The local `push` of `chunkByParagraphs`: trim, and keep only if nonempty. -/
def pushIf (t : Str) : List Str :=
  let v := trim t
  if v.isEmpty then [] else [v]

/-- The hard-split loop `for (let i = 0; i < p.length; i += chunkSizeChars)`:
consecutive slices of length `c`.  For `c = 0` the source loop would not
terminate; the builder only calls the chunker with `c ≥ 800` (theorem
`build_sizing_invariants`), and the model returns no slices in that case. -/
def hardSlices (c : Nat) (p : Str) : List Str :=
  if hp : p.isEmpty then []
  else if hc : c = 0 then []
  else p.take c :: hardSlices c (p.drop c)
termination_by p.length
decreasing_by
  simp only [List.isEmpty_iff] at hp
  have h1 : 0 < c := Nat.pos_of_ne_zero hc
  have h2 : 0 < p.length := List.length_pos.mpr hp
  simpa [List.length_drop] using Nat.sub_lt h2 h1

/-- Buffer reseeding in the overflow branch: `cur.slice(Math.max(0,
cur.length - overlapChars))`, then `(tail ? tail + "\n\n" : "") + p`. -/
def paraSeed (o : Nat) (cur p : Str) : Str :=
  let tail := cur.drop (cur.length - o)
  if tail.isEmpty then p else tail ++ paraSep ++ p

/-- The paragraph loop of `chunkByParagraphs`.  `5 * len > 9 * c` is the exact
integer form of `len > c * 1.8`. -/
def chunkLoop (c o : Nat) : List Str → Str → List Str
  | [], cur => pushIf cur
  | p :: ps, cur =>
    if 5 * p.length > 9 * c then
      if (trim cur).isEmpty then
        (hardSlices c p).flatMap pushIf ++ chunkLoop c o ps cur
      else
        pushIf cur ++ (hardSlices c p).flatMap pushIf ++ chunkLoop c o ps []
    else if cur.length + p.length + 2 ≤ c then
      chunkLoop c o ps (if cur.isEmpty then p else cur ++ paraSep ++ p)
    else
      pushIf cur ++ chunkLoop c o ps (paraSeed o cur p)

/-- The paragraph list: normalize, split on blank-line separators, trim each
part, drop empties. -/
def chunkParts (text : Str) : List Str :=
  ((splitParas (normalizeWhitespace text)).map trim).filter (fun s => !s.isEmpty)

/-- `chunkByParagraphs(text, chunkSizeChars, overlapChars)`. -/
def chunkByParagraphs (text : Str) (c o : Nat) : List Str :=
  chunkLoop c o (chunkParts text) []

/-! ## Corpus signature: `docSignature` (server.js lines 92-99) -/

/-- The name/size/mtime triple of a listed document.  File names cannot
contain `:` (nor `|`) on the filesystem this repository targets; the
sensitivity theorem takes colon-freeness as a hypothesis. -/
structure DocInfo where
  name : Str
  size : Nat
  mtime : Nat
deriving DecidableEq

/-- `` `${f.name}|${f.size}|${f.mtimeMs}` ``. -/
def docToken (d : DocInfo) : Str :=
  d.name ++ '|' :: natStr d.size ++ '|' :: natStr d.mtime

/-- The `"::"` join separator (also used by chunk ids). -/
def colon2 : Str := [':', ':']

/-- `Array.prototype.join(sep)`. -/
def joinList (sep : Str) : List Str → Str
  | [] => []
  | t :: ts => t ++ ts.flatMap (fun u => sep ++ u)

/-- `docSignature`: map to tokens, lexicographically sort, join with `"::"`.
`insertionSort` by `≤` models JS `Array.prototype.sort()` (default string
comparator): by antisymmetry the sorted permutation is unique. -/
def docSignature (files : List DocInfo) : Str :=
  joinList colon2 (List.insertionSort (fun a b : Str => a ≤ b) (files.map docToken))

/-! ## clampInt and the adaptive sizing (server.js lines 34-38, 152-154) -/

/-- `clampInt(val, def, min, max)`.  `none` models a non-finite `Number(val)`;
`Math.trunc` is the identity on the integer-valued inputs that occur. -/
def clampInt (val : Option Int) (df mn mx : Int) : Int :=
  match val with
  | none => df
  | some n => max mn (min mx n)

/-- `clampInt(Math.ceil(totalChars / TARGET_CHUNKS), 1400, 800, 3200)`.
For `target = 0` the JS quotient is not finite and `clampInt` yields the
default; otherwise `Math.ceil` of the exact quotient is `(tc + t - 1) / t`. -/
def buildChunkSize (totalChars target : Nat) : Int :=
  if target = 0 then clampInt none 1400 800 3200
  else clampInt (some (((totalChars + target - 1) / target : Nat) : Int)) 1400 800 3200

/-- `clampInt(Math.floor(chunkSizeChars * 0.12), 180, 80, 450)`: for all
integer `c` in the clamp range the double product rounds to the exact value,
so the floor is `⌊12·c/100⌋`, which is Int division for nonnegative `c`. -/
def buildOverlap (chunkSize : Int) : Int :=
  clampInt (some ((12 * chunkSize) / 100)) 180 80 450

/-! ## Knowledge-base build: `buildKB` (server.js lines 138-207)

The filesystem listing, PDF extraction and embedding provider are external
collaborators; `buildKB` is modelled as a function of the listed files (with
their already-extracted raw text) and of an abstract embedding function.
Writing the index file and the backup file are the side effects of the
successful path and are recorded as booleans in the outcome. -/

structure FileEntry where
  name : Str
  rawText : Str
  size : Nat
  mtime : Nat
deriving DecidableEq

structure KbDoc where
  name : Str
  text : Str
deriving DecidableEq

/-- The per-document extraction loop: normalize, drop documents whose cleaned
text has fewer than 80 characters. -/
def eligibleDocs (files : List FileEntry) : List KbDoc :=
  (files.map (fun f => KbDoc.mk f.name (normalizeWhitespace f.rawText))).filter
    (fun d => decide (80 ≤ d.text.length))

structure KbChunk where
  id : Str
  doc : Str
  chunkIndex : Nat
  text : Str
  embedding : List ℚ
deriving DecidableEq

structure KbMeta where
  targetChunks : Nat
  chunkSizeChars : Int
  overlapChars : Int
  docCount : Nat
  chunkCount : Nat
  docsSignature : Str
deriving DecidableEq

structure BuildOutcome where
  result : Except Str KbMeta
  wroteIndex : Bool
  wroteBackup : Bool

/-- The message of the error thrown when the listing is empty. -/
def errNoDocs : Str := ( "No hay documentos en /docs (PDF/TXT/MD)." ).toList

/-- `buildKB`.  `embed` stands for the batched embedding provider (batching in
groups of 64 preserves order, so it is one map); `prevIndexExists` stands for
`fs.existsSync(KB_PATH)`; the signature is recomputed from the same listing.
`createdAt` and the model-name fields of `meta` are external environment data
and are not modelled. -/
def buildKB (embed : Str → List ℚ) (target : Nat) (prevIndexExists : Bool)
    (files : List FileEntry) : BuildOutcome :=
  if files.isEmpty then
    BuildOutcome.mk (Except.error errNoDocs) false false
  else
    let docs := eligibleDocs files
    let totalChars := (docs.map (fun d => d.text.length)).foldl (· + ·) 0
    let c := buildChunkSize totalChars target
    let o := buildOverlap c
    let chunks := docs.flatMap (fun d =>
      (chunkByParagraphs d.text c.toNat o.toNat).enum.map (fun it =>
        KbChunk.mk (d.name ++ colon2 ++ natStr it.1) d.name it.1 it.2 (embed it.2)))
    let meta := KbMeta.mk target c o docs.length chunks.length
      (docSignature (files.map (fun f => DocInfo.mk f.name f.size f.mtime)))
    BuildOutcome.mk (Except.ok meta) true prevIndexExists

/-! ## Cosine similarity (server.js lines 49-59)

Over `ℝ`, for vectors of equal dimension (the loop indexes both arrays by the
positions of the first; embeddings of one model share a dimension). -/

/-- The loop accumulator `dot`. -/
def dotList (a b : List ℝ) : ℝ := (List.zipWith (fun x y => x * y) a b).sum

/-- The loop accumulators `na` / `nb` (sums of squares). -/
def sqSum (a : List ℝ) : ℝ := (a.map (fun x => x * x)).sum

open Classical in
/-- `cosineSimilarity(a, b)`: `0` if either norm vanishes, else
`dot / (Math.sqrt(na) * Math.sqrt(nb))`. -/
noncomputable def cosineSimilarity (a b : List ℝ) : ℝ :=
  if sqSum a = 0 ∨ sqSum b = 0 then 0
  else dotList a b / (Real.sqrt (sqSum a) * Real.sqrt (sqSum b))

/-! ## Retrieval: `retrieve` (server.js lines 220-244)

The query embedding is external; `sim` abstracts
`cosineSimilarity(qEmb, ·)` with scores in `ℚ`. -/

structure ScoredChunk where
  doc : Str
  chunkIndex : Nat
  text : Str
  score : ℚ
deriving DecidableEq

/-- The diversity-cap selection loop.  `picked` is accumulated in reverse;
`counts` models the `perDoc` map (`perDoc.get(s.doc) || 0`). -/
def selectLoop (cap topK : Nat) (picked : List ScoredChunk) (counts : Str → Nat) :
    List ScoredChunk → List ScoredChunk
  | [] => picked.reverse
  | s :: rest =>
    let cnt := counts s.doc
    if cap ≤ cnt then selectLoop cap topK picked counts rest
    else
      let picked' := s :: picked
      if topK ≤ picked'.length then picked'.reverse
      else selectLoop cap topK picked'
        (fun d => if d = s.doc then cnt + 1 else counts d) rest

/-- `retrieve`: score every chunk, sort by descending score (JS sort is
stable; `insertionSort` is stable), then select greedily under the per-document
cap until `topK` results are accepted. -/
def retrieve (sim : List ℚ → ℚ) (kb : List KbChunk) (topK cap : Nat) :
    List ScoredChunk :=
  let scored := kb.map (fun ch => ScoredChunk.mk ch.doc ch.chunkIndex ch.text (sim ch.embedding))
  let sorted := List.insertionSort (fun a b : ScoredChunk => b.score ≤ a.score) scored
  selectLoop cap topK [] (fun _ => 0) sorted

/-! ## QA merge tool (merge_qa_into_kb.js)

Schema detection (`pickKey` over a sample block) resolves to the canonical
field names on the indexes this repository builds; blocks are modelled with
that canonical shape.  The topic/doc strings derived from the input file name
(`topicFromFilename`) are passed in as data. -/

structure QaRecord where
  question : Str
  answer : Str
  variants : List Str
  tags : List Str
  sourceSection : Str
deriving DecidableEq

structure QaBlock where
  id : Str
  btype : Str
  doc : Str
  p : Str
  text : Str
  tags : List Str
  metaQuestion : Str
deriving DecidableEq

/-- `toLowerCase` restricted to ASCII plus the accented Latin letters used by
this corpus. -/
def jsToLower (c : Char) : Char :=
  if c == 'Á' then 'á' else if c == 'É' then 'é' else if c == 'Í' then 'í'
  else if c == 'Ó' then 'ó' else if c == 'Ú' then 'ú' else if c == 'Ñ' then 'ñ'
  else if c == 'Ü' then 'ü' else c.toLower

/-- `normalize("NFD")` restricted to the precomposed Latin letters used by
this corpus: base letter followed by a combining mark. -/
def nfdChar (c : Char) : Str :=
  if c == 'á' then ['a', '\u0301'] else if c == 'é' then ['e', '\u0301']
  else if c == 'í' then ['i', '\u0301'] else if c == 'ó' then ['o', '\u0301']
  else if c == 'ú' then ['u', '\u0301'] else if c == 'ñ' then ['n', '\u0303']
  else if c == 'ü' then ['u', '\u0308'] else [c]

/-- The combining-mark range `[\u0300-\u036f]`. -/
def isCombiningMark (c : Char) : Bool := 0x300 ≤ c.toNat && c.toNat ≤ 0x36F

/-- `norm(s)` of merge_qa_into_kb.js: trim, lower-case, NFD, strip combining
marks. -/
def norm (s : Str) : Str :=
  (((trim s).map jsToLower).flatMap nfdChar).filter (fun c => !isCombiningMark c)

/-- Split on `'\n'` (for line-anchored matching). -/
def splitOnNlAux (acc : Str) : Str → List Str
  | [] => [acc.reverse]
  | '\n' :: rest => acc.reverse :: splitOnNlAux [] rest
  | c :: rest => splitOnNlAux (c :: acc) rest

def splitOnNl (s : Str) : List Str := splitOnNlAux [] s

/-- The capture of `/^\s*Q:\s*(.+)$/` on one line: optional whitespace, the
literal `Q:`, optional whitespace, then a nonempty remainder (the capture runs
to the end of the line).  The corner case in which `\s*` crosses a line
boundary (a line consisting of `Q:` followed only by whitespace) is not
modelled; the blocks this tool writes always carry the question on the
`Q:` line. -/
def qLineCapture (line : Str) : Option Str :=
  match line.dropWhile isJsWs with
  | 'Q' :: ':' :: rest =>
    let cap := rest.dropWhile isJsWs
    if cap.isEmpty then none else some cap
  | _ => none

/-- First match of `/^\s*Q:\s*(.+)$/m` over the whole text. -/
def qKeyOfText (t : Str) : Option Str := (splitOnNl t).findSome? qLineCapture

/-- The `existingKeys` set: normalized captured questions of the stored
blocks. -/
def keysOfBlocks (blocks : List QaBlock) : List Str :=
  blocks.filterMap (fun b => (qKeyOfText b.text).map norm)

/-- `String(n).padStart(3, "0")`. -/
def pad3 (s : Str) : Str := List.replicate (3 - s.length) '0' ++ s

/-- `qaToBlock(qa, schema, topicInfo, n)`. -/
def qaToBlock (topic doc : Str) (qa : QaRecord) (n : Nat) : QaBlock :=
  let text := trim (( "Q: " ).toList ++ qa.question ++ '\n' ::
    (if qa.variants.isEmpty then []
     else '\n' :: ( "Variantes: " ).toList ++ joinList (( " | " ).toList) qa.variants) ++ '\n' ::
    (if qa.tags.isEmpty then []
     else '\n' :: ( "Tags: " ).toList ++ joinList (( ", " ).toList) qa.tags) ++ '\n' :: '\n' ::
    ( "A: " ).toList ++ qa.answer)
  QaBlock.mk (( "qa-" ).toList ++ topic ++ '-' :: pad3 (natStr n)) (( "qa" ).toList)
    doc qa.sourceSection text qa.tags qa.question

inductive MergeMode
  | append
  | replace
deriving DecidableEq

/-- The record loop of `main`: state is (accumulated blocks, key set, added
count).  A record is skipped when its normalized question is empty or already
present. -/
def mergeLoop (topic doc : Str) : List QaRecord → List Str → List QaBlock → Nat →
    List QaBlock × List Str × Nat
  | [], keys, blocks, added => (blocks, keys, added)
  | qa :: rest, keys, blocks, added =>
    let qkey := norm qa.question
    if qkey.isEmpty then mergeLoop topic doc rest keys blocks added
    else if qkey ∈ keys then mergeLoop topic doc rest keys blocks added
    else mergeLoop topic doc rest (qkey :: keys)
      (blocks ++ [qaToBlock topic doc qa (added + 1)]) (added + 1)

/-- One QA input file: topic, source-document label, records. -/
structure QaFile where
  topic : Str
  doc : Str
  records : List QaRecord
deriving DecidableEq

/-- The file loop of `main`. -/
def mergeFiles (files : List QaFile) (keys : List Str) (blocks : List QaBlock)
    (added : Nat) : List QaBlock × List Str × Nat :=
  match files with
  | [] => (blocks, keys, added)
  | f :: fs =>
    let st := mergeLoop f.topic f.doc f.records keys blocks added
    mergeFiles fs st.2.1 st.1 st.2.2

/-- `main` of merge_qa_into_kb.js: duplicate keys are collected from the
currently stored blocks; in `replace` mode the output block list starts empty,
in `append` mode it starts as a copy of the stored blocks. -/
def mergeRun (mode : MergeMode) (existing : List QaBlock) (files : List QaFile) :
    List QaBlock :=
  let keys0 := keysOfBlocks existing
  let blocks0 := match mode with
    | MergeMode.replace => []
    | MergeMode.append => existing
  (mergeFiles files keys0 blocks0 0).1

/-! ## Spec-side definitions (for refinement comparisons)

These two follow the words of the specification, not the source, and exist to
be compared against the definitions above. -/

/-- The specification's overlap formula `clamp(round(0.12 * chunkSizeChars),
min 80, max 450)`, with `round` taken literally. -/
def specOverlapRound (chunkSize : Int) : Int :=
  max 80 (min 450 (round ((12 * chunkSize : ℚ) / 100)))

/-- The specification's claim on the build failure mode: the build fails
(and writes nothing) whenever no eligible document remains after extraction
and the minimum-length filter. -/
def specBuildFailsWhenFilteredEmpty (embed : Str → List ℚ) (target : Nat)
    (prev : Bool) (files : List FileEntry) : Prop :=
  eligibleDocs files = [] →
    (buildKB embed target prev files).result.isOk = false ∧
    (buildKB embed target prev files).wroteIndex = false ∧
    (buildKB embed target prev files).wroteBackup = false

/-! ## Accounting functions used by the statements about the merge loop -/

/-- The subsequence of new keys accepted by the merge loop: a key is accepted
when it is nonempty and not yet present, and is then added to the key set. -/
def dedupNew (keys : List Str) : List Str → List Str
  | [] => []
  | k :: rest =>
    if k.isEmpty then dedupNew keys rest
    else if k ∈ keys then dedupNew keys rest
    else k :: dedupNew (k :: keys) rest

/-- The key set after the merge loop has processed a list of keys. -/
def keysAfter (keys : List Str) : List Str → List Str
  | [] => keys
  | k :: rest =>
    if k.isEmpty then keysAfter keys rest
    else if k ∈ keys then keysAfter keys rest
    else keysAfter (k :: keys) rest

/-- The normalized questions of a record list. -/
def normQs (rs : List QaRecord) : List Str := rs.map (fun qa => norm qa.question)

/-- The numeric value of a decimal digit string (most significant first);
used to show that decimal rendering is injective. -/
def decVal (s : Str) : Nat := s.foldl (fun a c => 10 * a + (c.toNat - 48)) 0

/-! ## Normal-form predicates for `normalizeWhitespace`

These characterize the image of the normalizer (on carriage-return-free
input); a string satisfying all of them is a fixed point of every pass. -/

/-- No adjacent pair of characters satisfies `bad`. -/
def noPair (bad : Char → Char → Bool) : Str → Bool
  | a :: b :: rest => !bad a b && noPair bad (b :: rest)
  | _ => true

/-- No adjacent triple of characters satisfies `bad`. -/
def noTriple (bad : Char → Char → Char → Bool) : Str → Bool
  | a :: b :: c :: rest => !bad a b c && noTriple bad (b :: c :: rest)
  | _ => true

/-- Horizontal whitespace immediately before a newline (would be eaten by
pass 2). -/
def badHwsNl (a b : Char) : Bool := isHws a && b == '\n'

/-- Two adjacent horizontal whitespace characters (would be collapsed by
pass 4). -/
def badHws2 (a b : Char) : Bool := isHws a && isHws b

/-- Three adjacent newlines (would be collapsed by pass 3). -/
def badNl3 (a b c : Char) : Bool := a == '\n' && b == '\n' && c == '\n'

/-- The ends of the string carry no JS whitespace (so `trim` is the
identity). -/
def trimmedEnds (s : Str) : Bool :=
  (match s.head? with
   | none => true
   | some c => !isJsWs c) &&
  (match s.getLast? with
   | none => true
   | some c => !isJsWs c)

/-- Normal form: carriage-return free, no whitespace-before-newline, no
doubled horizontal whitespace, no tripled newline, trimmed ends. -/
def isNormalForm (s : Str) : Bool :=
  s.all (fun c => !(c == '\r')) && noPair badHwsNl s && noPair badHws2 s &&
    noTriple badNl3 s && trimmedEnds s

/-- Either empty, or starting with the given marker character (the shape of
the remainder after a marker-free prefix). -/
def headIs (mark : Char) (r : Str) : Prop := r = [] ∨ ∃ t, r = mark :: t

/-! ## Concrete inputs used by counterexamples and witnesses -/

/-- `"a\r \nb"`: carriage return, then space, then newline. -/
def cex5 : Str := ['a', '\r', ' ', '\n', 'b']

/-- Ten `a`s, a blank line, eighteen `b`s. -/
def cex2 : Str :=
  List.replicate 10 'a' ++ '\n' :: '\n' :: List.replicate 18 'b'

/-- A file whose normalized text (`"hi"`) is shorter than 80 characters. -/
def shortFile : FileEntry := FileEntry.mk ([ 'a', '.', 't', 'x', 't' ]) ([ 'h', 'i' ]) 0 0

/-- First QA file of the duplicate-question scenario: questions `"Cafe"` and
`"Hola"`. -/
def wF1 : QaFile := QaFile.mk ([ 't' ]) ([ 'd' ])
  [QaRecord.mk (( "Cafe" ).toList) ([ 'x' ]) [] [] [],
   QaRecord.mk (( "Hola" ).toList) ([ 'y' ]) [] [] []]

/-- Second QA file of the scenario: the question `" CAFÉ "`, a case- and
accent-insensitive duplicate of `"Cafe"` after trimming. -/
def wF2 : QaFile := QaFile.mk ([ 'u' ]) ([ 'e' ])
  [QaRecord.mk (( " CAFÉ " ).toList) ([ 'z' ]) [] [] []]

/-! # Theorems -/

/-! ## Reduction lemmas for clampInt -/

theorem clampInt_some (n df mn mx : Int) : clampInt (some n) df mn mx = max mn (min mx n) := rfl

theorem clampInt_none (df mn mx : Int) : clampInt none df mn mx = df := rfl

/-! ## C10: the builder always hands the chunker a valid overlap -/

/-- C10: for every corpus size and target, `clampInt` keeps the adaptive
chunk size in `[800, 3200]` and the overlap in `[80, 450]` (the defaults
`1400` and `180` for non-finite inputs are in range), so every chunker
invocation made by the knowledge-base builder satisfies
`overlapChars < chunkSizeChars`. -/
theorem build_sizing_invariants (totalChars target : Nat) :
    800 ≤ buildChunkSize totalChars target ∧ buildChunkSize totalChars target ≤ 3200 ∧
    80 ≤ buildOverlap (buildChunkSize totalChars target) ∧
    buildOverlap (buildChunkSize totalChars target) ≤ 450 ∧
    buildOverlap (buildChunkSize totalChars target) < buildChunkSize totalChars target ∧
    clampInt none 1400 800 3200 = 1400 ∧ clampInt none 180 80 450 = 180 := by
  have hmain : 800 ≤ buildChunkSize totalChars target ∧
      buildChunkSize totalChars target ≤ 3200 := by
    unfold buildChunkSize
    split
    · rw [clampInt_none]; norm_num
    · rw [clampInt_some]
      generalize (((totalChars + target - 1) / target : Nat) : Int) = q
      omega
  have hov : buildOverlap (buildChunkSize totalChars target) =
      max 80 (min 450 ((12 * buildChunkSize totalChars target) / 100)) :=
    clampInt_some _ _ _ _
  refine ⟨hmain.1, hmain.2, ?_, ?_, ?_, rfl, rfl⟩ <;>
    · rw [hov]
      rcases hmain with ⟨h1, h2⟩
      omega

/-! ## C4: the adaptive sizing formulas -/

/-- C4 counterexample: at `totalChars = 120601`, `target = 150` the chunk
size is `805` and the overlap the code computes is
`clamp(floor(0.12 * 805)) = 96`, not `clamp(round(0.12 * 805)) = 97` as the
claim's formula states. -/
theorem sizing_round_counterexample :
    buildChunkSize 120601 150 = 805 ∧
    buildOverlap (buildChunkSize 120601 150) = 96 ∧
    specOverlapRound (buildChunkSize 120601 150) = 97 ∧
    buildOverlap (buildChunkSize 120601 150) ≠
      specOverlapRound (buildChunkSize 120601 150) := by
  have h1 : buildChunkSize 120601 150 = 805 := by decide
  have h2 : buildOverlap 805 = 96 := by decide
  have h3 : specOverlapRound 805 = 97 := by
    unfold specOverlapRound
    norm_num [round_eq]
  refine ⟨h1, by rw [h1]; exact h2, by rw [h1]; exact h3, by rw [h1, h2, h3]; decide⟩

/-- C4 (amended): for a positive target, the adaptive chunk size equals
`clamp(⌈totalCorpusChars / targetChunkCount⌉, 800, 3200)` (ceiling division)
and the overlap equals `clamp(⌊0.12 * chunkSizeChars⌋, 80, 450)` (floor, not
round); the default `1400` applies when the quotient is degenerate. -/
theorem build_adaptive_sizing (totalChars target : Nat) :
    (0 < target →
      buildChunkSize totalChars target =
        max 800 (min 3200 ⌈(totalChars : ℚ) / (target : ℚ)⌉) ∧
      buildOverlap (buildChunkSize totalChars target) =
        max 80 (min 450 ⌊(12 * (buildChunkSize totalChars target : ℚ)) / 100⌋)) ∧
    (target = 0 → buildChunkSize totalChars target = 1400) := by
  constructor
  · intro ht
    have htq : (0 : ℚ) < (target : ℚ) := by exact_mod_cast ht
    constructor
    · have hceil : ⌈(totalChars : ℚ) / (target : ℚ)⌉ =
          (((totalChars + target - 1) / target : Nat) : ℤ) := by
        have hdm := Nat.div_add_mod (totalChars + target - 1) target
        have hlt := Nat.mod_lt (totalChars + target - 1) ht
        set q : Nat := (totalChars + target - 1) / target with hq
        have hub : totalChars ≤ target * q := by omega
        have hlb : target * q < totalChars + target := by omega
        have hubq : (totalChars : ℚ) ≤ target * q := by exact_mod_cast hub
        have hlbq : (target : ℚ) * q < totalChars + target := by exact_mod_cast hlb
        rw [Int.ceil_eq_iff]
        constructor
        · rw [lt_div_iff htq]
          push_cast
          nlinarith [hlbq]
        · rw [div_le_iff htq]
          push_cast
          nlinarith [hubq]
      rw [hceil]
      unfold buildChunkSize
      rw [if_neg (Nat.pos_iff_ne_zero.mp ht), clampInt_some]
    · have hfl : ⌊(12 * (buildChunkSize totalChars target : ℚ)) / 100⌋ =
          (12 * buildChunkSize totalChars target) / 100 := by
        have h := Rat.floor_intCast_div_natCast (12 * buildChunkSize totalChars target) 100
        simpa using h
      rw [hfl]
      exact clampInt_some _ _ _ _
  · intro h
    simp [buildChunkSize, h, clampInt]

/-- Witness for `build_adaptive_sizing` at the concrete corpus
`totalChars = 120601`, `target = 150`. -/
theorem build_adaptive_sizing_witness :
    buildChunkSize 120601 150 = max 800 (min 3200 ⌈(120601 : ℚ) / (150 : ℚ)⌉) ∧
    buildChunkSize 120601 0 = 1400 := by
  refine ⟨?_, (build_adaptive_sizing 120601 0).2 rfl⟩
  have h := ((build_adaptive_sizing 120601 150).1 (by norm_num)).1
  exact_mod_cast h

/-! ## C1: when the build fails, and what it writes -/

/-- C1 counterexample: a listing containing one file whose normalized text is
shorter than 80 characters leaves no eligible document after the
minimum-length filter, yet the build does not fail: it writes an index (with
zero documents); so the claimed failure condition is not the one the code
implements. -/
theorem build_filtered_empty_counterexample :
    eligibleDocs [shortFile] = [] ∧
    ¬ specBuildFailsWhenFilteredEmpty (fun _ => []) 150 false [shortFile] := by
  refine ⟨by decide, ?_⟩
  intro hspec
  have h2 := (hspec (by decide)).2.1
  have h3 : (buildKB (fun _ => []) 150 false [shortFile]).wroteIndex = true := by decide
  rw [h3] at h2
  exact absurd h2 (by decide)

/-- C1 (amended): the build fails — with the no-documents error, writing no
index and no backup — exactly when the *listing* is empty (before extraction
and the 80-character filter); when the listing is nonempty the build always
succeeds and writes the index, creating a backup iff a previous index file
exists, even if every listed document was discarded by the filter. -/
theorem buildKB_error_only_on_empty_listing (embed : Str → List ℚ) (target : Nat)
    (prev : Bool) (files : List FileEntry) :
    (files = [] →
      (buildKB embed target prev files).result = Except.error errNoDocs ∧
      (buildKB embed target prev files).wroteIndex = false ∧
      (buildKB embed target prev files).wroteBackup = false) ∧
    (files ≠ [] →
      (buildKB embed target prev files).result.isOk = true ∧
      (buildKB embed target prev files).wroteIndex = true ∧
      (buildKB embed target prev files).wroteBackup = prev) := by
  constructor
  · intro h
    subst h
    exact ⟨rfl, rfl, rfl⟩
  · intro h
    rw [buildKB, if_neg (by simpa [List.isEmpty_iff] using h)]
    exact ⟨rfl, rfl, rfl⟩

/-- Witness for `buildKB_error_only_on_empty_listing`: the empty listing
fails without writing; the one-short-file listing writes the index. -/
theorem buildKB_error_only_on_empty_listing_witness :
    (buildKB (fun _ => []) 150 true []).result = Except.error errNoDocs ∧
    (buildKB (fun _ => []) 150 true [shortFile]).wroteIndex = true := by
  constructor
  · exact ((buildKB_error_only_on_empty_listing (fun _ => []) 150 true []).1 rfl).1
  · exact ((buildKB_error_only_on_empty_listing (fun _ => []) 150 true [shortFile]).2
      (by simp)).2.1

/-! ## C3: the per-document diversity cap -/

theorem selectLoop_count_le (cap topK : Nat) (dn : Str) :
    ∀ (rest picked : List ScoredChunk) (counts : Str → Nat),
      (∀ d, counts d = picked.countP (fun s => s.doc == d)) →
      (∀ d, picked.countP (fun s => s.doc == d) ≤ cap) →
      (selectLoop cap topK picked counts rest).countP (fun s => s.doc == dn) ≤ cap := by
  intro rest
  induction rest with
  | nil =>
    intro picked counts _ hle
    unfold selectLoop
    rw [(picked.reverse_perm).countP_eq]
    exact hle dn
  | cons s rest ih =>
    intro picked counts hcnt hle
    unfold selectLoop
    by_cases h1 : cap ≤ counts s.doc
    · rw [if_pos h1]
      exact ih picked counts hcnt hle
    · rw [if_neg h1]
      have hcnt' : ∀ d, (if d = s.doc then counts s.doc + 1 else counts d) =
          (s :: picked).countP (fun t => t.doc == d) := by
        intro d
        by_cases hd : d = s.doc
        · subst hd
          rw [if_pos rfl, List.countP_cons_of_pos _ _ (by simp), ← hcnt s.doc]
        · rw [if_neg hd,
            List.countP_cons_of_neg _ _ (by simpa using fun hh => hd hh.symm)]
          exact hcnt d
      have hle' : ∀ d, (s :: picked).countP (fun t => t.doc == d) ≤ cap := by
        intro d
        by_cases hd : s.doc = d
        · subst hd
          rw [List.countP_cons_of_pos _ _ (by simp)]
          have hc := hcnt s.doc
          omega
        · rw [List.countP_cons_of_neg _ _ (by simpa using hd)]
          exact hle d
      by_cases h2 : topK ≤ (s :: picked).length
      · rw [if_pos h2]
        rw [((s :: picked).reverse_perm).countP_eq]
        exact hle' dn
      · rw [if_neg h2]
        exact ih (s :: picked) _ (fun d => hcnt' d) hle'

theorem selectLoop_length_le (cap topK : Nat) :
    ∀ (rest picked : List ScoredChunk) (counts : Str → Nat),
      picked.length < topK →
      (selectLoop cap topK picked counts rest).length ≤ topK := by
  intro rest
  induction rest with
  | nil =>
    intro picked counts h
    unfold selectLoop
    rw [List.length_reverse]
    omega
  | cons s rest ih =>
    intro picked counts h
    unfold selectLoop
    by_cases h1 : cap ≤ counts s.doc
    · rw [if_pos h1]
      exact ih picked counts h
    · rw [if_neg h1]
      by_cases h2 : topK ≤ (s :: picked).length
      · rw [if_pos h2]
        rw [List.length_reverse]
        simp only [List.length_cons] at h2 ⊢
        omega
      · rw [if_neg h2]
        exact ih (s :: picked) _ (by omega)

/-- C3: retrieval never takes more than `perDocCap` chunks from one source
document — whatever the scores — and, when `topK ≥ 1`, never more than `topK`
results in total; selection is the greedy descending-score loop of the
definition of `retrieve`. -/
theorem retrieve_per_doc_cap (sim : List ℚ → ℚ) (kb : List KbChunk) (topK cap : Nat) :
    (∀ dn : Str, (retrieve sim kb topK cap).countP (fun s => s.doc == dn) ≤ cap) ∧
    (1 ≤ topK → (retrieve sim kb topK cap).length ≤ topK) := by
  constructor
  · intro dn
    exact selectLoop_count_le cap topK dn _ [] (fun _ => 0) (by simp) (by simp)
  · intro h
    exact selectLoop_length_le cap topK _ [] (fun _ => 0) (by simpa)

/-- Witness for `retrieve_per_doc_cap`: three same-document chunks, all with
the same score, `topK = 2`, `perDocCap = 1`. -/
theorem retrieve_per_doc_cap_witness :
    (retrieve (fun _ => 0)
        [KbChunk.mk [] [ 'a' ] 0 [] [], KbChunk.mk [] [ 'a' ] 1 [] [],
         KbChunk.mk [] [ 'a' ] 2 [] []] 2 1).countP (fun s => s.doc == [ 'a' ]) ≤ 1 ∧
    (retrieve (fun _ => 0)
        [KbChunk.mk [] [ 'a' ] 0 [] [], KbChunk.mk [] [ 'a' ] 1 [] [],
         KbChunk.mk [] [ 'a' ] 2 [] []] 2 1).length ≤ 2 :=
  ⟨(retrieve_per_doc_cap (fun _ => 0) _ 2 1).1 ([ 'a' ]),
   (retrieve_per_doc_cap (fun _ => 0) _ 2 1).2 (by norm_num)⟩

/-! ## C7: cosine similarity bounds -/

theorem sqSum_nonneg (a : List ℝ) : 0 ≤ sqSum a := by
  apply List.sum_nonneg
  intro x hx
  obtain ⟨y, _, rfl⟩ := List.mem_map.mp hx
  exact mul_self_nonneg y

theorem dotList_cons (x y : ℝ) (a b : List ℝ) :
    dotList (x :: a) (y :: b) = x * y + dotList a b := by
  simp [dotList]

theorem sqSum_cons (x : ℝ) (a : List ℝ) : sqSum (x :: a) = x * x + sqSum a := by
  simp [sqSum]

theorem dotList_sq_le (a : List ℝ) : ∀ b : List ℝ,
    dotList a b ^ 2 ≤ sqSum a * sqSum b := by
  induction a with
  | nil =>
    intro b
    have h1 : dotList [] b = 0 := by simp [dotList]
    have h2 : sqSum ([] : List ℝ) = 0 := by simp [sqSum]
    rw [h1, h2]
    simp
  | cons x a ih =>
    intro b
    cases b with
    | nil =>
      have h1 : dotList (x :: a) [] = 0 := by simp [dotList]
      have h2 : sqSum ([] : List ℝ) = 0 := by simp [sqSum]
      rw [h1, h2]
      simp
    | cons y b =>
      have hA := sqSum_nonneg a
      have hB := sqSum_nonneg b
      have hIH := ih b
      rw [dotList_cons, sqSum_cons, sqSum_cons]
      rcases eq_or_lt_of_le hB with hB0 | hBpos
      · have hd2 : dotList a b ^ 2 ≤ 0 := by
          rw [← hB0] at hIH
          simpa using hIH
        have hd : dotList a b = 0 :=
          (pow_eq_zero_iff (two_ne_zero)).mp (le_antisymm hd2 (sq_nonneg _))
        rw [hd, ← hB0]
        nlinarith [mul_nonneg hA (mul_self_nonneg y)]
      · have key : 0 ≤ sqSum b *
            ((x * x + sqSum a) * (y * y + sqSum b) - (x * y + dotList a b) ^ 2) := by
          nlinarith [sq_nonneg (x * sqSum b - y * dotList a b),
            mul_nonneg hB (sub_nonneg.mpr hIH),
            mul_nonneg (mul_self_nonneg y) (sub_nonneg.mpr hIH)]
        have hfinal :=
          (mul_nonneg_iff_of_pos_left hBpos).mp key
        linarith

/-- C7: the cosine similarity of any two (equal-dimension, real-idealized)
vectors lies in `[-1, 1]`, and is exactly `0` whenever either vector has zero
norm — the guard, not a division, handles that case. -/
theorem cosine_similarity_bounds (a b : List ℝ) :
    -1 ≤ cosineSimilarity a b ∧ cosineSimilarity a b ≤ 1 ∧
    ((sqSum a = 0 ∨ sqSum b = 0) → cosineSimilarity a b = 0) := by
  by_cases h : sqSum a = 0 ∨ sqSum b = 0
  · rw [cosineSimilarity, if_pos h]
    norm_num
  · have ha : 0 < sqSum a :=
      lt_of_le_of_ne (sqSum_nonneg a) (Ne.symm (not_or.mp h).1)
    have hb : 0 < sqSum b :=
      lt_of_le_of_ne (sqSum_nonneg b) (Ne.symm (not_or.mp h).2)
    have hD : 0 < Real.sqrt (sqSum a) * Real.sqrt (sqSum b) :=
      mul_pos (Real.sqrt_pos.mpr ha) (Real.sqrt_pos.mpr hb)
    have habs : |dotList a b| ≤ Real.sqrt (sqSum a) * Real.sqrt (sqSum b) := by
      have h1 : Real.sqrt (dotList a b ^ 2) ≤ Real.sqrt (sqSum a * sqSum b) :=
        Real.sqrt_le_sqrt (dotList_sq_le a b)
      rwa [Real.sqrt_sq_eq_abs, Real.sqrt_mul (le_of_lt ha)] at h1
    have hcos : cosineSimilarity a b =
        dotList a b / (Real.sqrt (sqSum a) * Real.sqrt (sqSum b)) := by
      rw [cosineSimilarity, if_neg h]
    have hb1 : |cosineSimilarity a b| ≤ 1 := by
      rw [hcos, abs_div, abs_of_pos hD]
      rw [div_le_one hD]
      exact habs
    have := abs_le.mp hb1
    exact ⟨this.1, this.2, fun hz => absurd hz h⟩

/-- Witness for `cosine_similarity_bounds`: the zero vector against `[1]`
yields exactly `0`. -/
theorem cosine_similarity_bounds_witness :
    cosineSimilarity [(0 : ℝ)] [(1 : ℝ)] = 0 :=
  (cosine_similarity_bounds [(0 : ℝ)] [(1 : ℝ)]).2.2 (Or.inl (by simp [sqSum]))

/-! ## C9: replace mode -/

theorem mergeLoop_blocks_factor (topic doc : Str) :
    ∀ (rs : List QaRecord) (keys : List Str) (blocks : List QaBlock) (added : Nat),
      mergeLoop topic doc rs keys blocks added =
        (blocks ++ (mergeLoop topic doc rs keys [] added).1,
         (mergeLoop topic doc rs keys [] added).2) := by
  intro rs
  induction rs with
  | nil => intro keys blocks added; simp [mergeLoop]
  | cons qa rest ih =>
    intro keys blocks added
    unfold mergeLoop
    by_cases h1 : (norm qa.question).isEmpty
    · rw [if_pos h1, if_pos h1]
      exact ih keys blocks added
    · rw [if_neg h1, if_neg h1]
      by_cases h2 : norm qa.question ∈ keys
      · rw [if_pos h2, if_pos h2]
        exact ih keys blocks added
      · rw [if_neg h2, if_neg h2]
        rw [ih _ (blocks ++ [qaToBlock topic doc qa (added + 1)]) (added + 1),
          ih _ ([] ++ [qaToBlock topic doc qa (added + 1)]) (added + 1)]
        simp

theorem mergeFiles_blocks_factor :
    ∀ (files : List QaFile) (keys : List Str) (blocks : List QaBlock) (added : Nat),
      mergeFiles files keys blocks added =
        (blocks ++ (mergeFiles files keys [] added).1,
         (mergeFiles files keys [] added).2) := by
  intro files
  induction files with
  | nil => intro keys blocks added; simp [mergeFiles]
  | cons f fs ih =>
    intro keys blocks added
    unfold mergeFiles
    rw [mergeLoop_blocks_factor f.topic f.doc f.records keys blocks added]
    dsimp only
    rw [ih (mergeLoop f.topic f.doc f.records keys [] added).2.1
        (blocks ++ (mergeLoop f.topic f.doc f.records keys [] added).1)
        (mergeLoop f.topic f.doc f.records keys [] added).2.2,
      ih (mergeLoop f.topic f.doc f.records keys [] added).2.1
        (mergeLoop f.topic f.doc f.records keys [] added).1
        (mergeLoop f.topic f.doc f.records keys [] added).2.2]
    simp

/-- C9: in `replace` mode the duplicate-lookup population is the blocks
currently stored in the target index (the carry-forward of prior runs), and
the output is rebuilt from scratch: an `append` run equals the stored blocks
followed by exactly the blocks a `replace` run produces from the same stored
index and the same files. -/
theorem merge_replace_rebuilds_from_stored_keys (existing : List QaBlock)
    (files : List QaFile) :
    mergeRun MergeMode.append existing files =
      existing ++ mergeRun MergeMode.replace existing files := by
  unfold mergeRun
  dsimp only
  rw [mergeFiles_blocks_factor files (keysOfBlocks existing) existing 0]

/-! ## C8: deduplication by normalized question -/

theorem mergeLoop_stats (topic doc : Str) :
    ∀ (rs : List QaRecord) (keys : List Str) (blocks : List QaBlock) (added : Nat),
      (mergeLoop topic doc rs keys blocks added).1.length =
        blocks.length + (dedupNew keys (normQs rs)).length ∧
      (mergeLoop topic doc rs keys blocks added).2.1 = keysAfter keys (normQs rs) := by
  intro rs
  induction rs with
  | nil =>
    intro keys blocks added
    simp [mergeLoop, dedupNew, keysAfter, normQs]
  | cons qa rest ih =>
    intro keys blocks added
    have hn : normQs (qa :: rest) = norm qa.question :: normQs rest := rfl
    rw [hn]
    unfold mergeLoop dedupNew keysAfter
    by_cases h1 : (norm qa.question).isEmpty
    · rw [if_pos h1, if_pos h1, if_pos h1]
      exact ih keys blocks added
    · rw [if_neg h1, if_neg h1, if_neg h1]
      by_cases h2 : norm qa.question ∈ keys
      · rw [if_pos h2, if_pos h2, if_pos h2]
        exact ih keys blocks added
      · rw [if_neg h2, if_neg h2, if_neg h2]
        have hrec := ih (norm qa.question :: keys)
          (blocks ++ [qaToBlock topic doc qa (added + 1)]) (added + 1)
        refine ⟨?_, hrec.2⟩
        rw [hrec.1]
        simp [List.length_append]
        omega

theorem dedupNew_nil (keys : List Str) : dedupNew keys [] = [] := rfl

theorem dedupNew_cons (keys : List Str) (k : Str) (rest : List Str) :
    dedupNew keys (k :: rest) =
      if k.isEmpty then dedupNew keys rest
      else if k ∈ keys then dedupNew keys rest
      else k :: dedupNew (k :: keys) rest := rfl

theorem keysAfter_nil (keys : List Str) : keysAfter keys [] = keys := rfl

theorem keysAfter_cons (keys : List Str) (k : Str) (rest : List Str) :
    keysAfter keys (k :: rest) =
      if k.isEmpty then keysAfter keys rest
      else if k ∈ keys then keysAfter keys rest
      else keysAfter (k :: keys) rest := rfl

theorem dedupNew_append (Y : List Str) :
    ∀ (X : List Str) (keys : List Str),
      dedupNew keys (X ++ Y) = dedupNew keys X ++ dedupNew (keysAfter keys X) Y := by
  intro X
  induction X with
  | nil => intro keys; simp [dedupNew_nil, keysAfter_nil]
  | cons k rest ih =>
    intro keys
    rw [List.cons_append, dedupNew_cons, dedupNew_cons, keysAfter_cons]
    by_cases h1 : k.isEmpty
    · rw [if_pos h1, if_pos h1, if_pos h1]
      exact ih keys
    · rw [if_neg h1, if_neg h1, if_neg h1]
      by_cases h2 : k ∈ keys
      · rw [if_pos h2, if_pos h2, if_pos h2]
        exact ih keys
      · rw [if_neg h2, if_neg h2, if_neg h2]
        rw [List.cons_append, ih (k :: keys)]

theorem mem_keysAfter_of_mem (x : Str) :
    ∀ (X : List Str) (keys : List Str), x ∈ keys → x ∈ keysAfter keys X := by
  intro X
  induction X with
  | nil => intro keys h; simpa [keysAfter] using h
  | cons k rest ih =>
    intro keys h
    unfold keysAfter
    by_cases h1 : k.isEmpty
    · rw [if_pos h1]; exact ih keys h
    · rw [if_neg h1]
      by_cases h2 : k ∈ keys
      · rw [if_pos h2]; exact ih keys h
      · rw [if_neg h2]; exact ih (k :: keys) (List.mem_cons_of_mem k h)

theorem keysAfter_subset (x : Str) :
    ∀ (X : List Str) (keys : List Str), x ∈ keysAfter keys X → x ∈ keys ∨ x ∈ X := by
  intro X
  induction X with
  | nil => intro keys h; exact Or.inl (by simpa [keysAfter] using h)
  | cons k rest ih =>
    intro keys h
    unfold keysAfter at h
    by_cases h1 : k.isEmpty
    · rw [if_pos h1] at h
      rcases ih keys h with hl | hr
      · exact Or.inl hl
      · exact Or.inr (List.mem_cons_of_mem k hr)
    · rw [if_neg h1] at h
      by_cases h2 : k ∈ keys
      · rw [if_pos h2] at h
        rcases ih keys h with hl | hr
        · exact Or.inl hl
        · exact Or.inr (List.mem_cons_of_mem k hr)
      · rw [if_neg h2] at h
        rcases ih (k :: keys) h with hl | hr
        · rcases List.mem_cons.mp hl with he | hk
          · exact Or.inr (he ▸ List.mem_cons_self k rest)
          · exact Or.inl hk
        · exact Or.inr (List.mem_cons_of_mem k hr)

theorem mem_keysAfter_of_mem_dedupNew (x : Str) :
    ∀ (X : List Str) (keys : List Str), x ∈ dedupNew keys X → x ∈ keysAfter keys X := by
  intro X
  induction X with
  | nil => intro keys h; simp [dedupNew] at h
  | cons k rest ih =>
    intro keys h
    unfold dedupNew at h
    unfold keysAfter
    by_cases h1 : k.isEmpty
    · rw [if_pos h1] at h; rw [if_pos h1]; exact ih keys h
    · rw [if_neg h1] at h; rw [if_neg h1]
      by_cases h2 : k ∈ keys
      · rw [if_pos h2] at h; rw [if_pos h2]; exact ih keys h
      · rw [if_neg h2] at h; rw [if_neg h2]
        rcases List.mem_cons.mp h with he | hm
        · exact he ▸ mem_keysAfter_of_mem k rest (k :: keys) (List.mem_cons_self k keys)
        · exact ih (k :: keys) hm

theorem dedupNew_all_new :
    ∀ (X : List Str) (keys : List Str), X.Nodup →
      (∀ x ∈ X, x ∉ keys ∧ x ≠ []) → dedupNew keys X = X := by
  intro X
  induction X with
  | nil => intro keys _ _; simp [dedupNew]
  | cons k rest ih =>
    intro keys hnd hx
    have hk := hx k (List.mem_cons_self k rest)
    have h1 : ¬ k.isEmpty := by
      simpa [List.isEmpty_iff] using hk.2
    unfold dedupNew
    rw [if_neg h1, if_neg hk.1]
    congr 1
    apply ih (k :: keys) (List.Nodup.of_cons hnd)
    intro x hxr
    refine ⟨?_, (hx x (List.mem_cons_of_mem k hxr)).2⟩
    intro hmem
    rcases List.mem_cons.mp hmem with he | hkeys
    · exact (List.nodup_cons.mp hnd).1 (he ▸ hxr)
    · exact (hx x (List.mem_cons_of_mem k hxr)).1 hkeys

theorem dedupNew_one_dup (l₁ l₂ l₃ : List Str) (n : Str)
    (hnd : (l₁ ++ n :: l₂ ++ l₃).Nodup)
    (hne : ∀ x ∈ l₁ ++ n :: l₂ ++ n :: l₃, x ≠ []) :
    (dedupNew [] (l₁ ++ n :: l₂ ++ n :: l₃)).length =
      l₁.length + l₂.length + l₃.length + 1 := by
  have hshape : l₁ ++ n :: l₂ ++ n :: l₃ = (l₁ ++ [n]) ++ ((l₂ ++ [n]) ++ l₃) := by
    simp
  -- pieces of the nodup hypothesis
  have hnd' : ((l₁ ++ [n]) ++ (l₂ ++ l₃)).Nodup := by
    simpa using hnd
  have h1n : (l₁ ++ [n]).Nodup := (List.nodup_append.mp hnd').1
  have h23 : (l₂ ++ l₃).Nodup := (List.nodup_append.mp hnd').2.1
  have hdisj : (l₁ ++ [n]).Disjoint (l₂ ++ l₃) := (List.nodup_append.mp hnd').2.2
  have hneL : ∀ x ∈ (l₁ ++ [n]) ++ ((l₂ ++ [n]) ++ l₃), x ≠ [] := by
    rw [← hshape]; exact hne
  rw [hshape, dedupNew_append ((l₂ ++ [n]) ++ l₃) (l₁ ++ [n]) [],
    dedupNew_append l₃ (l₂ ++ [n]) (keysAfter [] (l₁ ++ [n]))]
  -- part 1: all of l₁ ++ [n] is fresh
  have hpart1 : dedupNew [] (l₁ ++ [n]) = l₁ ++ [n] := by
    apply dedupNew_all_new _ _ h1n
    intro x hx
    exact ⟨by simp, hneL x (List.mem_append_left _ hx)⟩
  set K1 := keysAfter [] (l₁ ++ [n]) with hK1
  -- part 2: l₂ is fresh, the second n is a duplicate
  have hK1sub : ∀ x, x ∈ K1 → x ∈ l₁ ++ [n] := by
    intro x hx
    rcases keysAfter_subset x (l₁ ++ [n]) [] hx with h | h
    · simp at h
    · exact h
  have hpart2a : dedupNew K1 l₂ = l₂ := by
    apply dedupNew_all_new _ _ ((List.nodup_append.mp h23).1)
    intro x hx
    refine ⟨?_, hneL x (List.mem_append_right _
      (List.mem_append_left _ (List.mem_append_left _ hx)))⟩
    intro hmem
    exact hdisj (hK1sub x hmem) (List.mem_append_left _ hx)
  have hnK1 : n ∈ K1 := by
    apply mem_keysAfter_of_mem_dedupNew n (l₁ ++ [n]) []
    rw [hpart1]
    exact List.mem_append_right _ (List.mem_singleton_self n)
  have hpart2 : dedupNew K1 (l₂ ++ [n]) = l₂ := by
    rw [dedupNew_append, hpart2a]
    have hnin : n ∈ keysAfter K1 l₂ := mem_keysAfter_of_mem n l₂ K1 hnK1
    have hnne : ¬ (n : Str).isEmpty := by
      simpa [List.isEmpty_iff] using
        hne n (List.mem_append_right _ (List.mem_cons_self n _))
    rw [show dedupNew (keysAfter K1 l₂) [n] = [] by
      unfold dedupNew
      rw [if_neg hnne, if_pos hnin]
      rfl]
    simp
  rw [hpart2]
  -- part 3: l₃ is fresh
  set K2 := keysAfter K1 (l₂ ++ [n]) with hK2
  have hK2sub : ∀ x, x ∈ K2 → x ∈ l₁ ++ [n] ∨ x ∈ l₂ ++ [n] := by
    intro x hx
    rcases keysAfter_subset x (l₂ ++ [n]) K1 hx with h | h
    · exact Or.inl (hK1sub x h)
    · exact Or.inr h
  have hpart3 : dedupNew K2 l₃ = l₃ := by
    apply dedupNew_all_new _ _ ((List.nodup_append.mp h23).2.1)
    intro x hx
    refine ⟨?_, hneL x (List.mem_append_right _ (List.mem_append_right _ hx))⟩
    intro hmem
    rcases hK2sub x hmem with h | h
    · exact hdisj h (List.mem_append_right _ hx)
    · rcases List.mem_append.mp h with h2 | h2
      · exact (List.nodup_append.mp h23).2.2 h2 hx
      · have h2' : x = n := by simpa using h2
        exact hdisj (List.mem_append_right _ (by simp [h2']))
          (List.mem_append_right _ hx)
  rw [hpart1, hpart3]
  simp
  omega

/-- C8: the merger normalizes each question (case-fold, accent-strip, trim —
the definition of `norm`), skips records whose normalized question is already
in the target key set, and therefore merging two files that contain exactly
one (case/accent-insensitive) duplicate question into an empty target yields
one block fewer than the total record count. -/
theorem merge_dedup_scenario (f1 f2 : QaFile) (l₁ l₂ l₃ : List Str) (n : Str)
    (hmap : normQs (f1.records ++ f2.records) = l₁ ++ n :: l₂ ++ n :: l₃)
    (hnd : (l₁ ++ n :: l₂ ++ l₃).Nodup)
    (hne : ∀ x ∈ l₁ ++ n :: l₂ ++ n :: l₃, x ≠ []) :
    (mergeRun MergeMode.append [] [f1, f2]).length =
      f1.records.length + f2.records.length - 1 := by
  have hrun : mergeRun MergeMode.append [] [f1, f2] =
      (mergeFiles [f1, f2] [] [] 0).1 := by
    unfold mergeRun keysOfBlocks
    rfl
  have hmfc : ∀ (f : QaFile) (fs : List QaFile) (keys : List Str)
      (blocks : List QaBlock) (added : Nat),
      mergeFiles (f :: fs) keys blocks added =
        mergeFiles fs (mergeLoop f.topic f.doc f.records keys blocks added).2.1
          (mergeLoop f.topic f.doc f.records keys blocks added).1
          (mergeLoop f.topic f.doc f.records keys blocks added).2.2 :=
    fun _ _ _ _ _ => rfl
  have hmf : (mergeFiles [f1, f2] [] [] 0).1.length =
      (dedupNew [] (normQs f1.records)).length +
      (dedupNew (keysAfter [] (normQs f1.records)) (normQs f2.records)).length := by
    have hs1 := mergeLoop_stats f1.topic f1.doc f1.records [] [] 0
    rw [hmfc, hmfc, hs1.2]
    have hs2 := mergeLoop_stats f2.topic f2.doc f2.records
      (keysAfter [] (normQs f1.records))
      (mergeLoop f1.topic f1.doc f1.records [] [] 0).1
      (mergeLoop f1.topic f1.doc f1.records [] [] 0).2.2
    show (mergeFiles [] _ _ _).1.length = _
    rw [show ∀ (keys : List Str) (blocks : List QaBlock) (added : Nat),
        mergeFiles [] keys blocks added = (blocks, keys, added) from fun _ _ _ => rfl]
    rw [hs2.1, hs1.1]
    simp
  have happ : normQs (f1.records ++ f2.records) =
      normQs f1.records ++ normQs f2.records := by
    simp [normQs]
  have hlen : (dedupNew [] (normQs f1.records)).length +
      (dedupNew (keysAfter [] (normQs f1.records)) (normQs f2.records)).length =
      (dedupNew [] (l₁ ++ n :: l₂ ++ n :: l₃)).length := by
    rw [← hmap, happ, dedupNew_append, List.length_append]
  have hcount := dedupNew_one_dup l₁ l₂ l₃ n hnd hne
  have htotal : f1.records.length + f2.records.length =
      l₁.length + l₂.length + l₃.length + 2 := by
    have := congrArg List.length hmap
    simp [normQs] at this
    omega
  rw [hrun, hmf, hlen, hcount]
  omega

/-- Witness for `merge_dedup_scenario`: two files with questions `"Cafe"`,
`"Hola"`, `" CAFÉ "` (one case/accent-insensitive duplicate) merge into an
empty target as exactly two blocks. -/
theorem merge_dedup_scenario_witness :
    (mergeRun MergeMode.append [] [wF1, wF2]).length = 2 :=
  merge_dedup_scenario wF1 wF2 [] [( "hola" ).toList] [] (( "cafe" ).toList)
    (by decide) (by decide) (by decide)

/-! ## C6: signature stability and sensitivity -/

theorem decVal_append_digit (xs : Str) (c : Char) :
    decVal (xs ++ [c]) = 10 * decVal xs + (c.toNat - 48) := by
  simp [decVal, List.foldl_append]

theorem digitChar_toNat (m : Nat) (hm : m < 10) : (Nat.digitChar m).toNat = 48 + m := by
  interval_cases m <;> rfl

theorem natStrAux_val : ∀ (fuel n : Nat), n < fuel → decVal (natStrAux fuel n) = n := by
  intro fuel
  induction fuel with
  | zero => intro n h; omega
  | succ fuel ih =>
    intro n h
    unfold natStrAux
    by_cases h10 : n < 10
    · rw [if_pos h10]
      simp [decVal, digitChar_toNat n h10]
    · rw [if_neg h10]
      rw [decVal_append_digit, ih (n / 10) (by omega)]
      rw [digitChar_toNat (n % 10) (Nat.mod_lt n (by omega))]
      omega

theorem natStr_inj (a b : Nat) (h : natStr a = natStr b) : a = b := by
  have ha := natStrAux_val (a + 1) a (by omega)
  have hb := natStrAux_val (b + 1) b (by omega)
  unfold natStr at h
  rw [h] at ha
  rw [ha] at hb
  exact hb

theorem natStr_digits : ∀ (fuel n : Nat), ∀ c ∈ natStrAux fuel n,
    48 ≤ c.toNat ∧ c.toNat ≤ 57 := by
  intro fuel
  induction fuel with
  | zero => intro n c hc; simp [natStrAux] at hc
  | succ fuel ih =>
    intro n c hc
    unfold natStrAux at hc
    by_cases h10 : n < 10
    · rw [if_pos h10] at hc
      have : c = Nat.digitChar n := by simpa using hc
      subst this
      rw [digitChar_toNat n h10]
      omega
    · rw [if_neg h10] at hc
      rcases List.mem_append.mp hc with h | h
      · exact ih (n / 10) c h
      · have : c = Nat.digitChar (n % 10) := by simpa using h
        subst this
        rw [digitChar_toNat (n % 10) (Nat.mod_lt n (by omega))]
        omega

theorem natStr_no_colon (n : Nat) : ∀ c ∈ natStr n, c ≠ ':' := by
  intro c hc he
  have := natStr_digits (n + 1) n c hc
  subst he
  simp at this

theorem natStr_no_pipe (n : Nat) : ∀ c ∈ natStr n, c ≠ '|' := by
  intro c hc he
  have := natStr_digits (n + 1) n c hc
  subst he
  simp at this

theorem marker_split (mark : Char) :
    ∀ (x x' r r' : Str), (∀ c ∈ x, c ≠ mark) → (∀ c ∈ x', c ≠ mark) →
      headIs mark r → headIs mark r' → x ++ r = x' ++ r' → x = x' ∧ r = r' := by
  intro x
  induction x with
  | nil =>
    intro x' r r' _ hx' hr _ heq
    cases x' with
    | nil => exact ⟨rfl, by simpa using heq⟩
    | cons b ys =>
      rcases hr with h0 | ⟨t, ht⟩
      · rw [h0] at heq
        simp at heq
      · rw [ht] at heq
        have hb : mark = b := by simpa using congrArg List.head? heq
        exact absurd hb.symm (hx' b (List.mem_cons_self b ys))
  | cons a xs ih =>
    intro x' r r' hx hx' hr hr' heq
    cases x' with
    | nil =>
      rcases hr' with h0 | ⟨t, ht⟩
      · rw [h0] at heq
        simp at heq
      · rw [ht] at heq
        have hb : a = mark := by simpa using congrArg List.head? heq
        exact absurd hb (hx a (List.mem_cons_self a xs))
    | cons b ys =>
      have h1 : a = b := by simpa using congrArg List.head? heq
      have h2 : xs ++ r = ys ++ r' := by
        simpa using congrArg List.tail heq
      obtain ⟨he, hr2⟩ := ih ys r r' (fun c hc => hx c (List.mem_cons_of_mem a hc))
        (fun c hc => hx' c (List.mem_cons_of_mem b hc)) hr hr' h2
      exact ⟨by rw [h1, he], hr2⟩

theorem flatSep_headIs (L : List Str) :
    headIs ':' (L.flatMap (fun u => colon2 ++ u)) := by
  cases L with
  | nil => exact Or.inl rfl
  | cons u ts => exact Or.inr ⟨_, rfl⟩

theorem flatSep_inj :
    ∀ L L' : List Str, (∀ t ∈ L, ∀ c ∈ t, c ≠ ':') → (∀ t ∈ L', ∀ c ∈ t, c ≠ ':') →
      L.flatMap (fun u => colon2 ++ u) = L'.flatMap (fun u => colon2 ++ u) → L = L' := by
  intro L
  induction L with
  | nil =>
    intro L' _ _ heq
    cases L' with
    | nil => rfl
    | cons u ts => simp [colon2] at heq
  | cons u ts ih =>
    intro L' hL hL' heq
    cases L' with
    | nil => simp [colon2] at heq
    | cons u' ts' =>
      simp only [List.flatMap_cons, colon2, List.cons_append, List.nil_append,
        List.append_assoc] at heq
      have heq2 : u ++ ts.flatMap (fun u => colon2 ++ u) =
          u' ++ ts'.flatMap (fun u => colon2 ++ u) := by
        have := congrArg List.tail (congrArg List.tail heq)
        simpa [colon2] using this
      obtain ⟨he, ht⟩ := marker_split ':' u u' _ _
        (hL u (List.mem_cons_self u ts)) (hL' u' (List.mem_cons_self u' ts'))
        (flatSep_headIs ts) (flatSep_headIs ts') heq2
      rw [he, ih ts' (fun t htm => hL t (List.mem_cons_of_mem u htm))
        (fun t htm => hL' t (List.mem_cons_of_mem u' htm)) ht]

theorem joinList_colon2_inj (L L' : List Str)
    (hL : ∀ t ∈ L, t ≠ [] ∧ ∀ c ∈ t, c ≠ ':')
    (hL' : ∀ t ∈ L', t ≠ [] ∧ ∀ c ∈ t, c ≠ ':')
    (heq : joinList colon2 L = joinList colon2 L') : L = L' := by
  cases L with
  | nil =>
    cases L' with
    | nil => rfl
    | cons u ts =>
      exfalso
      have : ([] : Str) = u ++ ts.flatMap (fun v => colon2 ++ v) := heq
      rcases List.append_eq_nil.mp this.symm with ⟨hu, _⟩
      exact (hL' u (List.mem_cons_self u ts)).1 hu
  | cons u ts =>
    cases L' with
    | nil =>
      exfalso
      have : u ++ ts.flatMap (fun v => colon2 ++ v) = ([] : Str) := heq
      rcases List.append_eq_nil.mp this with ⟨hu, _⟩
      exact (hL u (List.mem_cons_self u ts)).1 hu
    | cons u' ts' =>
      have heq2 : u ++ ts.flatMap (fun v => colon2 ++ v) =
          u' ++ ts'.flatMap (fun v => colon2 ++ v) := heq
      obtain ⟨he, ht⟩ := marker_split ':' u u' _ _
        (hL u (List.mem_cons_self u ts)).2 (hL' u' (List.mem_cons_self u' ts')).2
        (flatSep_headIs ts) (flatSep_headIs ts') heq2
      rw [he, flatSep_inj ts ts' (fun t htm => (hL t (List.mem_cons_of_mem u htm)).2)
        (fun t htm => (hL' t (List.mem_cons_of_mem u' htm)).2) ht]

theorem docToken_ok (d : DocInfo) (h : ∀ c ∈ d.name, c ≠ ':') :
    docToken d ≠ [] ∧ ∀ c ∈ docToken d, c ≠ ':' := by
  constructor
  · intro he
    unfold docToken at he
    rcases List.append_eq_nil.mp he with ⟨_, h2⟩
    simp at h2
  · intro c hc
    unfold docToken at hc
    rcases List.mem_append.mp hc with h1 | h1
    · rcases List.mem_append.mp h1 with h2 | h2
      · exact h c h2
      · rcases List.mem_cons.mp h2 with h3 | h3
        · rw [h3]; decide
        · exact natStr_no_colon d.size c h3
    · rcases List.mem_cons.mp h1 with h2 | h2
      · rw [h2]; decide
      · exact natStr_no_colon d.mtime c h2

theorem docToken_inj_of_name (d d' : DocInfo) (hn : d'.name = d.name)
    (h : docToken d' = docToken d) : d'.size = d.size ∧ d'.mtime = d.mtime := by
  unfold docToken at h
  rw [hn] at h
  rw [List.append_assoc, List.append_assoc] at h
  have h2 := List.append_cancel_left h
  have h3 : natStr d'.size ++ '|' :: natStr d'.mtime =
      natStr d.size ++ '|' :: natStr d.mtime := by
    simpa [List.cons_append] using h2
  obtain ⟨hs, hm⟩ := marker_split '|' (natStr d'.size) (natStr d.size) _ _
    (natStr_no_pipe d'.size) (natStr_no_pipe d.size)
    (Or.inr ⟨_, rfl⟩) (Or.inr ⟨_, rfl⟩) h3
  have hm2 : natStr d'.mtime = natStr d.mtime := by simpa using hm
  exact ⟨natStr_inj _ _ hs, natStr_inj _ _ hm2⟩

theorem docSignature_perm_of_eq (l l' : List DocInfo)
    (hl : ∀ e ∈ l, ∀ c ∈ e.name, c ≠ ':') (hl' : ∀ e ∈ l', ∀ c ∈ e.name, c ≠ ':')
    (heq : docSignature l = docSignature l') :
    (l.map docToken).Perm (l'.map docToken) := by
  have hsortok : ∀ (m : List DocInfo), (∀ e ∈ m, ∀ c ∈ e.name, c ≠ ':') →
      ∀ t ∈ List.insertionSort (fun a b : Str => a ≤ b) (m.map docToken),
        t ≠ [] ∧ ∀ c ∈ t, c ≠ ':' := by
    intro m hm t ht
    have := (List.perm_insertionSort (fun a b : Str => a ≤ b) (m.map docToken)).mem_iff.mp ht
    obtain ⟨e, he, rfl⟩ := List.mem_map.mp this
    exact docToken_ok e (hm e he)
  have hs := joinList_colon2_inj _ _ (hsortok l hl) (hsortok l' hl') heq
  have p1 := (List.perm_insertionSort (fun a b : Str => a ≤ b) (l.map docToken)).symm
  have p2 := List.perm_insertionSort (fun a b : Str => a ≤ b) (l'.map docToken)
  rw [hs] at p1
  exact p1.trans p2

/-- C6: the corpus signature is invariant under permutation of the document
listing; and (for real file names, which cannot contain `:`) changing one
file's size or mtime, or adding or removing a file, changes the signature. -/
theorem doc_signature_stable_and_sensitive :
    (∀ l l' : List DocInfo, l.Perm l' → docSignature l = docSignature l') ∧
    (∀ (pre post : List DocInfo) (d d' : DocInfo),
      (∀ e ∈ pre ++ d :: post, ∀ c ∈ e.name, c ≠ ':') →
      d'.name = d.name → (d'.size ≠ d.size ∨ d'.mtime ≠ d.mtime) →
      docSignature (pre ++ d :: post) ≠ docSignature (pre ++ d' :: post)) ∧
    (∀ (pre post : List DocInfo) (d : DocInfo),
      (∀ e ∈ pre ++ d :: post, ∀ c ∈ e.name, c ≠ ':') →
      docSignature (pre ++ d :: post) ≠ docSignature (pre ++ post)) := by
  refine ⟨?_, ?_, ?_⟩
  · intro l l' h
    unfold docSignature
    congr 1
    exact List.eq_of_perm_of_sorted
      ((List.perm_insertionSort _ _).trans ((h.map docToken).trans
        (List.perm_insertionSort _ _).symm))
      (List.sorted_insertionSort _ _) (List.sorted_insertionSort _ _)
  · intro pre post d d' hfree hname hdiff heq
    have hfree' : ∀ e ∈ pre ++ d' :: post, ∀ c ∈ e.name, c ≠ ':' := by
      intro e he
      rcases List.mem_append.mp he with h1 | h1
      · exact hfree e (List.mem_append_left _ h1)
      · rcases List.mem_cons.mp h1 with h2 | h2
        · rw [h2, hname]
          exact hfree d (List.mem_append_right _ (List.mem_cons_self d post))
        · exact hfree e (List.mem_append_right _ (List.mem_cons_of_mem d h2))
    have hperm := docSignature_perm_of_eq _ _ hfree hfree' heq
    have hcount := hperm.count_eq (docToken d)
    have htne : docToken d' ≠ docToken d := by
      intro he
      obtain ⟨h1, h2⟩ := docToken_inj_of_name d d' hname he
      tauto
    have hbeq2 : (docToken d' == docToken d) = false := by
      simpa using htne
    simp [List.count_append, List.count_cons, hbeq2] at hcount
    rw [if_neg htne] at hcount
    exact absurd hcount (by decide)
  · intro pre post d hfree heq
    have hfree' : ∀ e ∈ pre ++ post, ∀ c ∈ e.name, c ≠ ':' := by
      intro e he
      rcases List.mem_append.mp he with h1 | h1
      · exact hfree e (List.mem_append_left _ h1)
      · exact hfree e (List.mem_append_right _ (List.mem_cons_of_mem d h1))
    have hperm := docSignature_perm_of_eq _ _ hfree hfree' heq
    have hlen := hperm.length_eq
    simp at hlen

/-- Witness for `doc_signature_stable_and_sensitive`: two concrete files in
both orders; a size change; a removal. -/
theorem doc_signature_stable_and_sensitive_witness :
    docSignature [DocInfo.mk [ 'a' ] 1 2, DocInfo.mk [ 'b' ] 3 4] =
      docSignature [DocInfo.mk [ 'b' ] 3 4, DocInfo.mk [ 'a' ] 1 2] ∧
    docSignature [DocInfo.mk [ 'a' ] 1 2] ≠ docSignature [DocInfo.mk [ 'a' ] 5 2] ∧
    docSignature [DocInfo.mk [ 'a' ] 1 2] ≠ docSignature [] := by
  refine ⟨?_, ?_, ?_⟩
  · exact doc_signature_stable_and_sensitive.1 _ _ (by decide)
  · exact doc_signature_stable_and_sensitive.2.1 [] [] (DocInfo.mk [ 'a' ] 1 2)
      (DocInfo.mk [ 'a' ] 5 2) (by decide) rfl (Or.inl (by decide))
  · exact doc_signature_stable_and_sensitive.2.2 [] [] (DocInfo.mk [ 'a' ] 1 2)
      (by decide)

/-! ## C2: chunk size bound -/

/-- C2 counterexample: with `chunkSizeChars = 10`, `overlapChars = 5` and the
text "ten a's, blank line, eighteen b's" no paragraph exceeds the hard-split
threshold (so no chunk is a forced hard-split slice), yet the chunker emits a
chunk of 25 characters, exceeding `chunkSizeChars * 1.8 = 18`
(`9 * 10 < 5 * 25`): the overlap seed plus separator plus a near-threshold
paragraph overshoots the claimed bound. -/
theorem chunk_bound_claim_counterexample :
    (∀ p ∈ chunkParts cex2, 5 * p.length ≤ 9 * 10) ∧
    ∃ ch ∈ chunkByParagraphs cex2 10 5, 9 * 10 < 5 * ch.length := by decide

theorem trim_length_le (s : Str) : (trim s).length ≤ s.length := by
  unfold trim
  rw [List.length_reverse]
  calc ((s.dropWhile isJsWs).reverse.dropWhile isJsWs).length
      ≤ (s.dropWhile isJsWs).reverse.length := (List.dropWhile_sublist _).length_le
    _ = (s.dropWhile isJsWs).length := List.length_reverse _
    _ ≤ s.length := (List.dropWhile_sublist _).length_le

theorem mem_pushIf (t ch : Str) (h : ch ∈ pushIf t) : ch = trim t := by
  unfold pushIf at h
  by_cases he : (trim t).isEmpty
  · rw [if_pos he] at h
    simp at h
  · rw [if_neg he] at h
    simpa using h

theorem hardSlices_length_aux (c : Nat) :
    ∀ (n : Nat) (p : Str), p.length ≤ n → ∀ s ∈ hardSlices c p, s.length ≤ c := by
  intro n
  induction n with
  | zero =>
    intro p hp s hs
    have hpn : p = [] := List.length_eq_zero.mp (Nat.le_zero.mp hp)
    subst hpn
    unfold hardSlices at hs
    simp at hs
  | succ n ih =>
    intro p hp s hs
    unfold hardSlices at hs
    by_cases hpe : p.isEmpty
    · rw [dif_pos hpe] at hs
      simp at hs
    · rw [dif_neg hpe] at hs
      by_cases hc0 : c = 0
      · rw [dif_pos hc0] at hs
        simp at hs
      · rw [dif_neg hc0] at hs
        rcases List.mem_cons.mp hs with h | h
        · rw [h, List.length_take]
          omega
        · apply ih (p.drop c) ?_ s h
          rw [List.length_drop]
          have hpos : 0 < p.length :=
            List.length_pos.mpr (by simpa [List.isEmpty_iff] using hpe)
          omega

theorem hardSlices_length (c : Nat) (p : Str) : ∀ s ∈ hardSlices c p, s.length ≤ c :=
  hardSlices_length_aux c p.length p le_rfl

theorem chunkLoop_bound (c o : Nat) (hc : 0 < c) :
    ∀ (parts : List Str) (cur : Str), cur.length ≤ o + 2 + 9 * c / 5 →
      ∀ ch ∈ chunkLoop c o parts cur, ch.length ≤ o + 2 + 9 * c / 5 := by
  have hcB : c ≤ o + 2 + 9 * c / 5 := by
    have h1 : 5 * c / 5 ≤ 9 * c / 5 := Nat.div_le_div_right (by omega)
    rw [Nat.mul_div_cancel_left c (by norm_num)] at h1
    omega
  intro parts
  induction parts with
  | nil =>
    intro cur hcur ch hch
    unfold chunkLoop at hch
    rw [mem_pushIf cur ch hch]
    exact (trim_length_le cur).trans hcur
  | cons p ps ih =>
    intro cur hcur ch hch
    unfold chunkLoop at hch
    by_cases h1 : 5 * p.length > 9 * c
    · rw [if_pos h1] at hch
      by_cases h2 : (trim cur).isEmpty
      · rw [if_pos h2] at hch
        rcases List.mem_append.mp hch with h | h
        · obtain ⟨sl, hsl, hmem⟩ := List.mem_flatMap.mp h
          rw [mem_pushIf sl ch hmem]
          exact le_trans (le_trans (trim_length_le sl)
            (hardSlices_length c p sl hsl)) hcB
        · exact ih cur hcur ch h
      · rw [if_neg h2] at hch
        rcases List.mem_append.mp hch with h | h
        · rcases List.mem_append.mp h with ha | ha
          · rw [mem_pushIf cur ch ha]
            exact (trim_length_le cur).trans hcur
          · obtain ⟨sl, hsl, hmem⟩ := List.mem_flatMap.mp ha
            rw [mem_pushIf sl ch hmem]
            exact le_trans (le_trans (trim_length_le sl)
              (hardSlices_length c p sl hsl)) hcB
        · exact ih [] (Nat.zero_le _) ch h
    · rw [if_neg h1] at hch
      by_cases h2 : cur.length + p.length + 2 ≤ c
      · rw [if_pos h2] at hch
        apply ih _ ?_ ch hch
        have hlen : (if cur.isEmpty then p else cur ++ paraSep ++ p).length ≤ c := by
          by_cases h3 : cur.isEmpty
          · rw [if_pos h3]
            have : cur = [] := List.isEmpty_iff.mp h3
            rw [this] at h2
            simpa using by omega
          · rw [if_neg h3]
            simp [paraSep]
            omega
        exact hlen.trans hcB
      · rw [if_neg h2] at hch
        rcases List.mem_append.mp hch with h | h
        · rw [mem_pushIf cur ch h]
          exact (trim_length_le cur).trans hcur
        · apply ih (paraSeed o cur p) ?_ ch h
          have hp : p.length ≤ 9 * c / 5 := by
            rw [Nat.le_div_iff_mul_le (by norm_num)]
            omega
          unfold paraSeed
          by_cases h3 : (cur.drop (cur.length - o)).isEmpty
          · rw [if_pos h3]
            omega
          · rw [if_neg h3]
            simp [paraSep, List.length_drop]
            omega

/-- C2 (amended): for every text and every positive `chunkSizeChars`, every
chunk the chunker produces — hard-split slices included — has character
length at most `overlapChars + 2 + ⌊1.8 * chunkSizeChars⌋`; the
`1.8 * chunkSizeChars` bound alone holds for buffers but not for the
overlap-seeded buffer that absorbs a near-threshold paragraph. -/
theorem chunk_length_bound (text : Str) (c o : Nat) (hc : 0 < c) :
    ∀ ch ∈ chunkByParagraphs text c o, ch.length ≤ o + 2 + 9 * c / 5 := by
  intro ch hch
  exact chunkLoop_bound c o hc (chunkParts text) [] (Nat.zero_le _) ch hch

/-- Witness for `chunk_length_bound` on the concrete counterexample text:
both produced chunks respect the amended bound `5 + 2 + 18 = 25`. -/
theorem chunk_length_bound_witness :
    (List.replicate 10 'a' : Str).length ≤ 5 + 2 + 9 * 10 / 5 ∧
    (List.replicate 5 'a' ++ '\n' :: '\n' :: List.replicate 18 'b' : Str).length ≤
      5 + 2 + 9 * 10 / 5 :=
  ⟨chunk_length_bound cex2 10 5 (by norm_num) (List.replicate 10 'a') (by decide),
   chunk_length_bound cex2 10 5 (by norm_num)
     (List.replicate 5 'a' ++ '\n' :: '\n' :: List.replicate 18 'b') (by decide)⟩

/-! ## C5: normalizer idempotence

Infrastructure about the adjacent-pair and adjacent-triple predicates. -/

theorem noPair_cons_iff (bad : Char → Char → Bool) (a : Char) (l : Str) :
    noPair bad (a :: l) = true ↔
      ((∀ b, l.head? = some b → bad a b = false) ∧ noPair bad l = true) := by
  cases l with
  | nil => simp [noPair]
  | cons b l2 =>
    show (!bad a b && noPair bad (b :: l2)) = true ↔ _
    rw [Bool.and_eq_true, Bool.not_eq_true']
    constructor
    · rintro ⟨h1, h2⟩
      exact ⟨fun b' hb' => by cases hb'; exact h1, h2⟩
    · rintro ⟨h1, h2⟩
      exact ⟨h1 b rfl, h2⟩

theorem np_tail (bad : Char → Char → Bool) (a : Char) (l : Str)
    (h : noPair bad (a :: l) = true) : noPair bad l = true :=
  ((noPair_cons_iff bad a l).mp h).2

theorem np_head (bad : Char → Char → Bool) (a b : Char) (l : Str)
    (h : noPair bad (a :: l) = true) (hb : l.head? = some b) : bad a b = false :=
  ((noPair_cons_iff bad a l).mp h).1 b hb

theorem np_append_right (bad : Char → Char → Bool) :
    ∀ (x y : Str), noPair bad (x ++ y) = true → noPair bad y = true := by
  intro x
  induction x with
  | nil => intro y h; exact h
  | cons a xs ih => intro y h; exact ih y (np_tail bad a _ h)

theorem np_append_left (bad : Char → Char → Bool) :
    ∀ (x y : Str), noPair bad (x ++ y) = true → noPair bad x = true := by
  intro x
  induction x with
  | nil => intro y _; rfl
  | cons a xs ih =>
    intro y h
    rw [List.cons_append] at h
    rw [noPair_cons_iff]
    refine ⟨?_, ih y (np_tail bad a _ h)⟩
    intro b hb
    apply np_head bad a b _ h
    cases xs with
    | nil => simp at hb
    | cons d xs2 => simpa using hb

theorem np_append_bound (bad : Char → Char → Bool) :
    ∀ (x y : Str) (a b : Char), noPair bad (x ++ y) = true →
      x.getLast? = some a → y.head? = some b → bad a b = false := by
  intro x
  induction x with
  | nil => intro y a b _ hl _; simp at hl
  | cons c xs ih =>
    intro y a b h hl hh
    cases xs with
    | nil =>
      have hc : c = a := by simpa using hl
      subst hc
      exact np_head bad c b y h hh
    | cons d xs2 =>
      rw [List.getLast?_cons_cons] at hl
      exact ih y a b (np_tail bad c _ h) hl hh

theorem noPair_short (bad : Char → Char → Bool) (l : Str) (h : l.length ≤ 1) :
    noPair bad l = true := by
  cases l with
  | nil => rfl
  | cons a l2 =>
    cases l2 with
    | nil => rfl
    | cons b l3 => simp at h

theorem noTriple_cons_iff (bad : Char → Char → Char → Bool) (a : Char) (l : Str) :
    noTriple bad (a :: l) = true ↔
      ((∀ b c r, l = b :: c :: r → bad a b c = false) ∧ noTriple bad l = true) := by
  cases l with
  | nil => simp [noTriple]
  | cons b l2 =>
    cases l2 with
    | nil => simp [noTriple]
    | cons c l3 =>
      show (!bad a b c && noTriple bad (b :: c :: l3)) = true ↔ _
      rw [Bool.and_eq_true, Bool.not_eq_true']
      constructor
      · rintro ⟨h1, h2⟩
        refine ⟨?_, h2⟩
        intro b' c' r' hr'
        obtain ⟨rfl, rfl, rfl⟩ : b = b' ∧ c = c' ∧ l3 = r' := by
          simpa using hr'
        exact h1
      · rintro ⟨h1, h2⟩
        exact ⟨h1 b c l3 rfl, h2⟩

theorem nt_tail (bad : Char → Char → Char → Bool) (a : Char) (l : Str)
    (h : noTriple bad (a :: l) = true) : noTriple bad l = true :=
  ((noTriple_cons_iff bad a l).mp h).2

theorem nt_append_right (bad : Char → Char → Char → Bool) :
    ∀ (x y : Str), noTriple bad (x ++ y) = true → noTriple bad y = true := by
  intro x
  induction x with
  | nil => intro y h; exact h
  | cons a xs ih => intro y h; exact ih y (nt_tail bad a _ h)

theorem nt_append_left (bad : Char → Char → Char → Bool) :
    ∀ (x y : Str), noTriple bad (x ++ y) = true → noTriple bad x = true := by
  intro x
  induction x with
  | nil => intro y _; rfl
  | cons a xs ih =>
    intro y h
    rw [List.cons_append] at h
    rw [noTriple_cons_iff]
    refine ⟨?_, ih y (nt_tail bad a _ h)⟩
    intro b c r hr
    apply ((noTriple_cons_iff bad a (xs ++ y)).mp h).1 b c (r ++ y)
    rw [hr]
    simp

theorem noTriple_short (bad : Char → Char → Char → Bool) (l : Str) (h : l.length ≤ 2) :
    noTriple bad l = true := by
  cases l with
  | nil => rfl
  | cons a l2 =>
    cases l2 with
    | nil => rfl
    | cons b l3 =>
      cases l3 with
      | nil => rfl
      | cons c l4 => simp at h

/-! Fixed-point lemmas: a normal-form string passes through every pass
unchanged. -/

theorem crlf_id : ∀ (s : Str), (∀ c ∈ s, c ≠ '\r') → crlfToNl s = s := by
  intro s
  induction s using crlfToNl.induct with
  | case1 => intro _; rfl
  | case2 c => intro _; rfl
  | case3 c d rest hif ih =>
    intro h
    exact absurd hif.1 (h c (List.mem_cons_self c _))
  | case4 c d rest hif ih =>
    intro h
    unfold crlfToNl
    rw [if_neg hif, ih (fun e he => h e (List.mem_cons_of_mem c he))]

theorem leadsToNl_nil : leadsToNl [] = false := rfl

theorem stripWsNl_id : ∀ (s : Str), noPair badHwsNl s = true →
    noPair badHws2 s = true → stripWsNl s = s := by
  intro s
  induction s with
  | nil => intro _ _; rfl
  | cons c rest ih =>
    intro h1 h2
    have hguard : (isHws c && leadsToNl rest) = false := by
      by_cases hc : isHws c
      · have hlead : leadsToNl rest = false := by
          cases rest with
          | nil => rfl
          | cons d r2 =>
            have hp2 : badHws2 c d = false := np_head badHws2 c d _ h2 rfl
            have hdn : isHws d = false := by
              unfold badHws2 at hp2
              rw [hc] at hp2
              simpa using hp2
            have hp1 : badHwsNl c d = false := np_head badHwsNl c d _ h1 rfl
            have hdn2 : (d == '\n') = false := by
              unfold badHwsNl at hp1
              rw [hc] at hp1
              simpa using hp1
            unfold leadsToNl
            rw [List.dropWhile_cons, hdn]
            simpa using hdn2
        rw [hc, hlead]
        rfl
      · rw [Bool.not_eq_true] at hc
        rw [hc]
        rfl
    unfold stripWsNl
    rw [hguard]
    simp only [Bool.false_eq_true, if_false]
    rw [ih (np_tail _ _ _ h1) (np_tail _ _ _ h2)]

theorem collapseNls_id_aux : ∀ (s : Str),
    (noTriple badNl3 s = true → collapseNlsAux 0 s = s) ∧
    (noTriple badNl3 ('\n' :: s) = true → collapseNlsAux 1 s = '\n' :: s) ∧
    (noTriple badNl3 ('\n' :: '\n' :: s) = true →
      collapseNlsAux 2 s = '\n' :: '\n' :: s) := by
  intro s
  induction s with
  | nil => exact ⟨fun _ => rfl, fun _ => rfl, fun _ => rfl⟩
  | cons c rest ih =>
    refine ⟨?_, ?_, ?_⟩
    · intro h
      unfold collapseNlsAux
      by_cases hc : c == '\n'
      · rw [if_pos hc]
        have := ih.2.1
        rw [show c = '\n' from by simpa using hc] at h
        exact (this h).trans (by rw [show c = '\n' from by simpa using hc])
      · rw [if_neg hc]
        show c :: collapseNlsAux 0 rest = c :: rest
        rw [ih.1 (nt_tail _ _ _ h)]
    · intro h
      unfold collapseNlsAux
      by_cases hc : c == '\n'
      · rw [if_pos hc]
        have hc' : c = '\n' := by simpa using hc
        rw [hc'] at h ⊢
        exact ih.2.2 h
      · rw [if_neg hc]
        show '\n' :: c :: collapseNlsAux 0 rest = '\n' :: c :: rest
        rw [ih.1 (nt_tail _ _ _ (nt_tail _ _ _ h))]
    · intro h
      unfold collapseNlsAux
      by_cases hc : c == '\n'
      · exfalso
        have hc' : c = '\n' := by simpa using hc
        rw [hc'] at h
        have : badNl3 '\n' '\n' '\n' = false :=
          ((noTriple_cons_iff badNl3 '\n' _).mp h).1 '\n' '\n' rest rfl
        simp [badNl3] at this
      · rw [if_neg hc]
        show '\n' :: '\n' :: c :: collapseNlsAux 0 rest = '\n' :: '\n' :: c :: rest
        rw [ih.1 (nt_tail _ _ _ (nt_tail _ _ _ (nt_tail _ _ _ h)))]

theorem collapseNls_id (s : Str) (h : noTriple badNl3 s = true) : collapseNls s = s :=
  (collapseNls_id_aux s).1 h

theorem collapseHws_id_aux : ∀ (s : Str),
    (noPair badHws2 s = true → collapseHwsAux [] s = s) ∧
    (∀ h : Char, isHws h = true → noPair badHws2 (h :: s) = true →
      collapseHwsAux [h] s = h :: s) := by
  intro s
  induction s with
  | nil => exact ⟨fun _ => rfl, fun _ _ _ => rfl⟩
  | cons c rest ih =>
    constructor
    · intro h
      unfold collapseHwsAux
      by_cases hc : isHws c
      · rw [if_pos hc]
        show collapseHwsAux ([] ++ [c]) rest = c :: rest
        rw [List.nil_append]
        exact ih.2 c hc h
      · rw [if_neg hc]
        show hwsOut [] ++ c :: collapseHwsAux [] rest = c :: rest
        rw [ih.1 (np_tail _ _ _ h)]
        rfl
    · intro hch hhws h
      unfold collapseHwsAux
      by_cases hc : isHws c
      · exfalso
        have := np_head badHws2 hch c _ h rfl
        unfold badHws2 at this
        rw [hhws, hc] at this
        simp at this
      · rw [if_neg hc]
        show hwsOut [hch] ++ c :: collapseHwsAux [] rest = hch :: c :: rest
        rw [ih.1 (np_tail _ _ _ (np_tail _ _ _ h))]
        rfl

theorem collapseHws_id (s : Str) (h : noPair badHws2 s = true) : collapseHws s = s :=
  (collapseHws_id_aux s).1 h

theorem dropWhile_id_of_head (p : Char → Bool) (l : Str)
    (h : ∀ c, l.head? = some c → p c = false) : l.dropWhile p = l := by
  cases l with
  | nil => rfl
  | cons a l2 =>
    rw [List.dropWhile_cons, h a rfl]
    simp

theorem trim_id (s : Str) (h : trimmedEnds s = true) : trim s = s := by
  unfold trimmedEnds at h
  rw [Bool.and_eq_true] at h
  have hh : ∀ c, s.head? = some c → isJsWs c = false := by
    intro c hc
    rw [hc] at h
    simpa using h.1
  have hl : ∀ c, s.getLast? = some c → isJsWs c = false := by
    intro c hc
    rw [hc] at h
    simpa using h.2
  unfold trim
  rw [dropWhile_id_of_head _ _ hh]
  rw [dropWhile_id_of_head _ _ (by
    intro c hc
    rw [List.head?_reverse] at hc
    exact hl c hc)]
  exact List.reverse_reverse s

/-! Character-population lemmas: the passes never introduce a carriage
return. -/

theorem mem_stripWsNl : ∀ (s : Str) (c : Char), c ∈ stripWsNl s → c ∈ s := by
  intro s
  induction s with
  | nil => intro c h; simpa [stripWsNl] using h
  | cons a rest ih =>
    intro c h
    unfold stripWsNl at h
    by_cases hg : (isHws a && leadsToNl rest) = true
    · rw [if_pos hg] at h
      exact List.mem_cons_of_mem a (ih c h)
    · rw [if_neg hg] at h
      rcases List.mem_cons.mp h with h1 | h1
      · exact h1 ▸ List.mem_cons_self a rest
      · exact List.mem_cons_of_mem a (ih c h1)

theorem mem_nlOut (run : Nat) (c : Char) (h : c ∈ nlOut run) : c = '\n' := by
  unfold nlOut at h
  exact List.eq_of_mem_replicate h

theorem mem_collapseNlsAux : ∀ (s : Str) (run : Nat) (c : Char),
    c ∈ collapseNlsAux run s → c = '\n' ∨ c ∈ s := by
  intro s
  induction s with
  | nil => intro run c h; exact Or.inl (mem_nlOut run c h)
  | cons a rest ih =>
    intro run c h
    unfold collapseNlsAux at h
    by_cases ha : a == '\n'
    · rw [if_pos ha] at h
      rcases ih (run + 1) c h with h1 | h1
      · exact Or.inl h1
      · exact Or.inr (List.mem_cons_of_mem a h1)
    · rw [if_neg ha] at h
      rcases List.mem_append.mp h with h1 | h1
      · exact Or.inl (mem_nlOut run c h1)
      · rcases List.mem_cons.mp h1 with h2 | h2
        · exact Or.inr (h2 ▸ List.mem_cons_self a rest)
        · rcases ih 0 c h2 with h3 | h3
          · exact Or.inl h3
          · exact Or.inr (List.mem_cons_of_mem a h3)

theorem mem_hwsOut (run : Str) (c : Char) (h : c ∈ hwsOut run) : c = ' ' ∨ c ∈ run := by
  unfold hwsOut at h
  by_cases h2 : 2 ≤ run.length
  · rw [if_pos h2] at h
    exact Or.inl (by simpa using h)
  · rw [if_neg h2] at h
    exact Or.inr h

theorem mem_collapseHwsAux : ∀ (s run : Str) (c : Char),
    c ∈ collapseHwsAux run s → c = ' ' ∨ c ∈ run ∨ c ∈ s := by
  intro s
  induction s with
  | nil =>
    intro run c h
    rcases mem_hwsOut run c h with h1 | h1
    · exact Or.inl h1
    · exact Or.inr (Or.inl h1)
  | cons a rest ih =>
    intro run c h
    unfold collapseHwsAux at h
    by_cases ha : isHws a
    · rw [if_pos ha] at h
      rcases ih (run ++ [a]) c h with h1 | h1 | h1
      · exact Or.inl h1
      · rcases List.mem_append.mp h1 with h2 | h2
        · exact Or.inr (Or.inl h2)
        · have hca : c = a := by simpa using h2
          exact Or.inr (Or.inr (hca ▸ List.mem_cons_self a rest))
      · exact Or.inr (Or.inr (List.mem_cons_of_mem a h1))
    · rw [if_neg ha] at h
      rcases List.mem_append.mp h with h1 | h1
      · rcases mem_hwsOut run c h1 with h2 | h2
        · exact Or.inl h2
        · exact Or.inr (Or.inl h2)
      · rcases List.mem_cons.mp h1 with h2 | h2
        · exact Or.inr (Or.inr (h2 ▸ List.mem_cons_self a rest))
        · rcases ih [] c h2 with h3 | h3 | h3
          · exact Or.inl h3
          · simp at h3
          · exact Or.inr (Or.inr (List.mem_cons_of_mem a h3))

theorem mem_trim (s : Str) (c : Char) (h : c ∈ trim s) : c ∈ s := by
  unfold trim at h
  rw [List.mem_reverse] at h
  have h2 := (List.dropWhile_sublist isJsWs).mem h
  rw [List.mem_reverse] at h2
  exact (List.dropWhile_sublist isJsWs).mem h2

/-! Establishment: `stripWsNl` leaves no horizontal whitespace before a
newline. -/

theorem leadsToNl_cons_hws (c : Char) (rest : Str) (hc : isHws c = true) :
    leadsToNl (c :: rest) = leadsToNl rest := by
  unfold leadsToNl
  rw [List.dropWhile_cons, hc]
  simp

theorem stripWsNl_head_not_nl : ∀ (s : Str), leadsToNl s = false →
    (stripWsNl s).head? ≠ some '\n' := by
  intro s
  induction s with
  | nil => intro _ h; simp [stripWsNl] at h
  | cons c rest ih =>
    intro hlead
    unfold stripWsNl
    by_cases hg : (isHws c && leadsToNl rest) = true
    · rw [if_pos hg]
      rw [Bool.and_eq_true] at hg
      rw [leadsToNl_cons_hws c rest hg.1] at hlead
      rw [hlead] at hg
      simp at hg
    · rw [if_neg hg]
      intro hh
      have hc : c = '\n' := by simpa using hh
      subst hc
      unfold leadsToNl at hlead
      rw [List.dropWhile_cons] at hlead
      simp [isHws] at hlead

theorem stripWsNl_no_hws_nl : ∀ (s : Str), noPair badHwsNl (stripWsNl s) = true := by
  intro s
  induction s with
  | nil => rfl
  | cons c rest ih =>
    unfold stripWsNl
    by_cases hg : (isHws c && leadsToNl rest) = true
    · rw [if_pos hg]
      exact ih
    · rw [if_neg hg]
      rw [noPair_cons_iff]
      refine ⟨?_, ih⟩
      intro b hb
      unfold badHwsNl
      by_cases hc : isHws c
      · have hlead : leadsToNl rest = false := by
          rcases Bool.eq_false_or_eq_true (leadsToNl rest) with h | h
          · exact absurd (by rw [hc, h]; rfl) hg
          · exact h
        have hbn : b ≠ '\n' := by
          intro hbe
          exact stripWsNl_head_not_nl rest hlead (hbe ▸ hb)
        rw [hc]
        simpa using hbn
      · rw [Bool.not_eq_true] at hc
        rw [hc]
        rfl

/-! `collapseNls`: establishes the no-triple-newline property and preserves
the no-whitespace-before-newline property. -/

theorem nlOut_cases (run : Nat) :
    nlOut run = [] ∨ nlOut run = ['\n'] ∨ nlOut run = ['\n', '\n'] := by
  unfold nlOut
  have h : min run 2 = 0 ∨ min run 2 = 1 ∨ min run 2 = 2 := by omega
  rcases h with h | h | h <;> rw [h]
  · exact Or.inl rfl
  · exact Or.inr (Or.inl rfl)
  · exact Or.inr (Or.inr rfl)

theorem nt_cons_not_nl (a : Char) (l : Str) (ha : (a == '\n') = false)
    (hl : noTriple badNl3 l = true) : noTriple badNl3 (a :: l) = true := by
  rw [noTriple_cons_iff]
  refine ⟨?_, hl⟩
  intro b c r _
  unfold badNl3
  rw [ha]
  rfl

theorem nt_cons_nl_before (a : Char) (l : Str) (ha : (a == '\n') = false)
    (hl : noTriple badNl3 (a :: l) = true) :
    noTriple badNl3 ('\n' :: a :: l) = true := by
  rw [noTriple_cons_iff]
  refine ⟨?_, hl⟩
  intro b c r hr
  have hb : b = a := by
    have := congrArg List.head? hr
    simpa using this.symm
  unfold badNl3
  rw [hb, ha]
  simp

theorem nt_glue_nlOut (run : Nat) (c : Char) (X : Str) (hc : (c == '\n') = false)
    (hX : noTriple badNl3 X = true) :
    noTriple badNl3 (nlOut run ++ c :: X) = true := by
  have base : noTriple badNl3 (c :: X) = true := nt_cons_not_nl c X hc hX
  rcases nlOut_cases run with h | h | h <;> rw [h]
  · simpa using base
  · simpa using nt_cons_nl_before c X hc base
  · have h1 := nt_cons_nl_before c X hc base
    show noTriple badNl3 ('\n' :: '\n' :: c :: X) = true
    rw [noTriple_cons_iff]
    refine ⟨?_, h1⟩
    intro b d r hr
    have : b = '\n' ∧ d :: r = c :: X := by
      constructor
      · have := congrArg List.head? hr
        simpa using this.symm
      · have := congrArg List.tail hr
        simpa using this.symm
    have hd : d = c := by
      have := congrArg List.head? this.2
      simpa using this
    unfold badNl3
    rw [hd, hc]
    simp

theorem collapseNlsAux_noNl3 : ∀ (s : Str) (run : Nat),
    noTriple badNl3 (collapseNlsAux run s) = true := by
  intro s
  induction s with
  | nil =>
    intro run
    unfold collapseNlsAux
    apply noTriple_short
    unfold nlOut
    simp
  | cons c rest ih =>
    intro run
    unfold collapseNlsAux
    by_cases hc : c == '\n'
    · rw [if_pos hc]
      exact ih (run + 1)
    · rw [if_neg hc]
      exact nt_glue_nlOut run c _ (by simpa using hc) (ih 0)

theorem collapseNls_noNl3 (s : Str) : noTriple badNl3 (collapseNls s) = true :=
  collapseNlsAux_noNl3 s 0

theorem collapseNlsAux_zero_head (rest : Str)
    (h : (collapseNlsAux 0 rest).head? = some '\n') : rest.head? = some '\n' := by
  cases rest with
  | nil => simp [collapseNlsAux, nlOut] at h
  | cons e r2 =>
    by_cases he : e == '\n'
    · have : e = '\n' := by simpa using he
      rw [this]
      rfl
    · unfold collapseNlsAux at h
      rw [if_neg he] at h
      have h2 : (nlOut 0 ++ e :: collapseNlsAux 0 r2).head? = some e := rfl
      rw [h2] at h
      have he2 : e = '\n' := by simpa using h
      exact absurd he2 (by simpa using he)

theorem np_cons_not_hws (a : Char) (l : Str) (ha : isHws a = false)
    (hl : noPair badHwsNl l = true) : noPair badHwsNl (a :: l) = true := by
  rw [noPair_cons_iff]
  refine ⟨?_, hl⟩
  intro b _
  unfold badHwsNl
  rw [ha]
  rfl

theorem collapseNlsAux_pres_hwsnl : ∀ (s : Str) (run : Nat),
    noPair badHwsNl s = true → noPair badHwsNl (collapseNlsAux run s) = true := by
  intro s
  induction s with
  | nil =>
    intro run _
    rcases nlOut_cases run with h | h | h <;>
      · show noPair badHwsNl (collapseNlsAux run []) = true
        unfold collapseNlsAux
        rw [h]
        first
        | rfl
        | exact np_cons_not_hws '\n' _ rfl (noPair_short _ _ (by simp))
  | cons c rest ih =>
    intro run hP1
    unfold collapseNlsAux
    by_cases hc : c == '\n'
    · rw [if_pos hc]
      exact ih (run + 1) (np_tail _ _ _ hP1)
    · rw [if_neg hc]
      have hX := ih 0 (np_tail _ _ _ hP1)
      have hbc : ∀ d, (collapseNlsAux 0 rest).head? = some d → badHwsNl c d = false := by
        intro d hd
        unfold badHwsNl
        by_cases hd' : d == '\n'
        · have hdn : d = '\n' := by simpa using hd'
          subst hdn
          have hrh := collapseNlsAux_zero_head rest hd
          have hbad := np_head badHwsNl c '\n' rest hP1 hrh
          unfold badHwsNl at hbad
          simpa using hbad
        · rw [Bool.not_eq_true] at hd'
          rw [hd']
          simp
      have base : noPair badHwsNl (c :: collapseNlsAux 0 rest) = true :=
        (noPair_cons_iff _ _ _).mpr ⟨hbc, hX⟩
      rcases nlOut_cases run with h | h | h <;> rw [h]
      · simpa using base
      · simpa using np_cons_not_hws '\n' _ rfl base
      · show noPair badHwsNl ('\n' :: '\n' :: c :: collapseNlsAux 0 rest) = true
        exact np_cons_not_hws '\n' _ rfl (np_cons_not_hws '\n' _ rfl base)

theorem collapseNls_pres_hwsnl (s : Str) (h : noPair badHwsNl s = true) :
    noPair badHwsNl (collapseNls s) = true :=
  collapseNlsAux_pres_hwsnl s 0 h

/-! `collapseHws`: establishes the no-doubled-horizontal-whitespace property
and preserves the other normal-form properties. -/

theorem getLast?_mem_self : ∀ (l : Str) (a : Char), l.getLast? = some a → a ∈ l := by
  intro l
  induction l with
  | nil => intro a h; simp at h
  | cons c rest ih =>
    intro a h
    cases rest with
    | nil =>
      have : c = a := by simpa using h
      exact this ▸ List.mem_cons_self c _
    | cons d r2 =>
      rw [List.getLast?_cons_cons] at h
      exact List.mem_cons_of_mem c (ih a h)

theorem hws_ne_nl (b : Char) (h : isHws b = true) : (b == '\n') = false := by
  unfold isHws at h
  rcases Bool.or_eq_true _ _ |>.mp h with h1 | h1
  · have : b = ' ' := by simpa using h1
    rw [this]
    rfl
  · have : b = '\t' := by simpa using h1
    rw [this]
    rfl

theorem hwsOut_shape (run : Str) (hall : ∀ c ∈ run, isHws c = true) :
    hwsOut run = [] ∨ ∃ b, hwsOut run = [b] ∧ isHws b = true := by
  unfold hwsOut
  by_cases h2 : 2 ≤ run.length
  · rw [if_pos h2]
    exact Or.inr ⟨' ', rfl, rfl⟩
  · rw [if_neg h2]
    cases run with
    | nil => exact Or.inl rfl
    | cons b r2 =>
      cases r2 with
      | nil => exact Or.inr ⟨b, rfl, hall b (List.mem_cons_self b [])⟩
      | cons d r3 => simp at h2

theorem collapseHwsAux_noHws2 : ∀ (s run : Str), (∀ c ∈ run, isHws c = true) →
    noPair badHws2 (collapseHwsAux run s) = true := by
  intro s
  induction s with
  | nil =>
    intro run hall
    show noPair badHws2 (hwsOut run) = true
    rcases hwsOut_shape run hall with h | ⟨b, h, _⟩ <;> rw [h]
    · rfl
    · rfl
  | cons c rest ih =>
    intro run hall
    unfold collapseHwsAux
    by_cases hc : isHws c
    · rw [if_pos hc]
      apply ih (run ++ [c])
      intro e he
      rcases List.mem_append.mp he with h1 | h1
      · exact hall e h1
      · have : e = c := by simpa using h1
        exact this ▸ hc
    · rw [if_neg hc]
      rw [Bool.not_eq_true] at hc
      have base : noPair badHws2 (c :: collapseHwsAux [] rest) = true := by
        rw [noPair_cons_iff]
        refine ⟨?_, ih [] (by simp)⟩
        intro b _
        unfold badHws2
        rw [hc]
        rfl
      rcases hwsOut_shape run hall with h | ⟨b, h, _⟩ <;> rw [h]
      · simpa using base
      · show noPair badHws2 (b :: c :: collapseHwsAux [] rest) = true
        rw [noPair_cons_iff]
        refine ⟨?_, base⟩
        intro d hd
        have hdc : d = c := (by simpa using hd : c = d).symm
        unfold badHws2
        rw [hdc, hc]
        simp

theorem collapseHwsAux_run_head : ∀ (s run : Str), run ≠ [] →
    (∀ c ∈ run, isHws c = true) →
    (collapseHwsAux run s).head? ≠ some '\n' := by
  intro s
  induction s with
  | nil =>
    intro run hne hall h
    rcases hwsOut_shape run hall with hsh | ⟨b, hsh, hb⟩
    · rw [show collapseHwsAux run [] = hwsOut run from rfl, hsh] at h
      simp at h
    · rw [show collapseHwsAux run [] = hwsOut run from rfl, hsh] at h
      have : b = '\n' := by simpa using h
      rw [this] at hb
      simp [isHws] at hb
  | cons c rest ih =>
    intro run hne hall h
    unfold collapseHwsAux at h
    by_cases hc : isHws c
    · rw [if_pos hc] at h
      apply ih (run ++ [c]) (by simp) ?_ h
      intro e he
      rcases List.mem_append.mp he with h1 | h1
      · exact hall e h1
      · have : e = c := by simpa using h1
        exact this ▸ hc
    · rw [if_neg hc] at h
      rcases hwsOut_shape run hall with hsh | ⟨b, hsh, hb⟩
      · exact hne (by
          cases run with
          | nil => rfl
          | cons x r2 =>
            exfalso
            unfold hwsOut at hsh
            by_cases h2 : 2 ≤ (x :: r2).length
            · rw [if_pos h2] at hsh; simp at hsh
            · rw [if_neg h2] at hsh; simp at hsh)
      · rw [hsh] at h
        have : b = '\n' := by simpa using h
        rw [this] at hb
        simp [isHws] at hb

theorem collapseHwsAux_nil_head (s : Str)
    (h : (collapseHwsAux [] s).head? = some '\n') : s.head? = some '\n' := by
  cases s with
  | nil => simp [collapseHwsAux, hwsOut] at h
  | cons e r2 =>
    by_cases he : isHws e
    · exfalso
      unfold collapseHwsAux at h
      rw [if_pos he] at h
      exact collapseHwsAux_run_head r2 ([] ++ [e]) (by simp)
        (by
          intro c hc
          have : c = e := by simpa using hc
          exact this ▸ he) h
    · unfold collapseHwsAux at h
      rw [if_neg he] at h
      have h2 : (hwsOut [] ++ e :: collapseHwsAux [] r2).head? = some e := rfl
      rw [h2] at h
      simpa using h

theorem collapseHwsAux_nil_nl (r : Str) :
    collapseHwsAux [] ('\n' :: r) = '\n' :: collapseHwsAux [] r := rfl

theorem collapseHwsAux_pres_nl3 : ∀ (s run : Str), (∀ c ∈ run, isHws c = true) →
    noTriple badNl3 s = true → noTriple badNl3 (collapseHwsAux run s) = true := by
  intro s
  induction s with
  | nil =>
    intro run hall _
    show noTriple badNl3 (hwsOut run) = true
    rcases hwsOut_shape run hall with h | ⟨b, h, _⟩ <;> rw [h] <;> rfl
  | cons c rest ih =>
    intro run hall hP3
    unfold collapseHwsAux
    by_cases hc : isHws c
    · rw [if_pos hc]
      apply ih (run ++ [c]) ?_ (nt_tail _ _ _ hP3)
      intro e he
      rcases List.mem_append.mp he with h1 | h1
      · exact hall e h1
      · have : e = c := by simpa using h1
        exact this ▸ hc
    · rw [if_neg hc]
      have hX := ih [] (by simp) (nt_tail _ _ _ hP3)
      have hcX : noTriple badNl3 (c :: collapseHwsAux [] rest) = true := by
        rw [noTriple_cons_iff]
        refine ⟨?_, hX⟩
        intro b d r hr
        by_cases hcnl : c == '\n'
        · by_cases hbnl : b == '\n'
          · by_cases hdnl : d == '\n'
            · exfalso
              have hb' : b = '\n' := by simpa using hbnl
              have hd' : d = '\n' := by simpa using hdnl
              have hXhead : (collapseHwsAux [] rest).head? = some '\n' := by
                rw [hr, hb']
                rfl
              have hrh := collapseHwsAux_nil_head rest hXhead
              obtain ⟨r2, hrest⟩ : ∃ r2, rest = '\n' :: r2 := by
                cases rest with
                | nil => simp at hrh
                | cons x r2 =>
                  have : x = '\n' := by simpa using hrh
                  exact ⟨r2, by rw [this]⟩
              have hXeq : collapseHwsAux [] rest = '\n' :: collapseHwsAux [] r2 := by
                rw [hrest]
                exact collapseHwsAux_nil_nl r2
              have htl : collapseHwsAux [] r2 = d :: r := by
                have h5 := hXeq.symm.trans hr
                obtain ⟨-, h6⟩ : '\n' = b ∧ collapseHwsAux [] r2 = d :: r := by
                  simpa using h5
                exact h6
              have hr2head : (collapseHwsAux [] r2).head? = some '\n' := by
                rw [htl, hd']
                rfl
              have hr2h := collapseHwsAux_nil_head r2 hr2head
              obtain ⟨r3, hr2⟩ : ∃ r3, r2 = '\n' :: r3 := by
                cases r2 with
                | nil => simp at hr2h
                | cons x r3 =>
                  have : x = '\n' := by simpa using hr2h
                  exact ⟨r3, by rw [this]⟩
              have hc' : c = '\n' := by simpa using hcnl
              rw [hc', hrest, hr2] at hP3
              have := ((noTriple_cons_iff _ _ _).mp hP3).1 '\n' '\n' r3 rfl
              simp [badNl3] at this
            · rw [Bool.not_eq_true] at hdnl
              unfold badNl3
              rw [hdnl]
              simp
          · rw [Bool.not_eq_true] at hbnl
            unfold badNl3
            rw [hbnl]
            simp
        · rw [Bool.not_eq_true] at hcnl
          unfold badNl3
          rw [hcnl]
          simp
      rcases hwsOut_shape run hall with h | ⟨b, h, hb⟩ <;> rw [h]
      · simpa using hcX
      · show noTriple badNl3 (b :: c :: collapseHwsAux [] rest) = true
        exact nt_cons_not_nl b _ (hws_ne_nl b hb) hcX

theorem collapseHwsAux_pres_hwsnl : ∀ (s run : Str), (∀ c ∈ run, isHws c = true) →
    noPair badHwsNl (run ++ s) = true →
    noPair badHwsNl (collapseHwsAux run s) = true := by
  intro s
  induction s with
  | nil =>
    intro run hall _
    show noPair badHwsNl (hwsOut run) = true
    rcases hwsOut_shape run hall with h | ⟨b, h, _⟩ <;> rw [h] <;> rfl
  | cons c rest ih =>
    intro run hall hP1
    unfold collapseHwsAux
    by_cases hc : isHws c
    · rw [if_pos hc]
      apply ih (run ++ [c]) ?_ ?_
      · intro e he
        rcases List.mem_append.mp he with h1 | h1
        · exact hall e h1
        · have : e = c := by simpa using h1
          exact this ▸ hc
      · rw [List.append_assoc]
        simpa using hP1
    · rw [if_neg hc]
      rw [Bool.not_eq_true] at hc
      have hrest : noPair badHwsNl rest = true :=
        np_tail _ _ _ (np_append_right badHwsNl run (c :: rest) hP1)
      have base : noPair badHwsNl (c :: collapseHwsAux [] rest) = true := by
        rw [noPair_cons_iff]
        refine ⟨?_, ih [] (by simp) (by simpa using hrest)⟩
        intro b _
        unfold badHwsNl
        rw [hc]
        rfl
      rcases hwsOut_shape run hall with h | ⟨b, h, hb⟩ <;> rw [h]
      · simpa using base
      · show noPair badHwsNl (b :: c :: collapseHwsAux [] rest) = true
        rw [noPair_cons_iff]
        refine ⟨?_, base⟩
        intro d hd
        have hd' : d = c := (by simpa using hd : c = d).symm
        -- the run is nonempty here, so the input has a pair (last of run, c)
        have hrun_ne : run ≠ [] := by
          intro hre
          rw [hre] at h
          simp [hwsOut] at h
        obtain ⟨a, ha⟩ : ∃ a, run.getLast? = some a := by
          cases hl : run.getLast? with
          | none => exact absurd (List.getLast?_eq_none_iff.mp hl) hrun_ne
          | some a => exact ⟨a, rfl⟩
        have hahws : isHws a = true := hall a (getLast?_mem_self run a ha)
        have hbound := np_append_bound badHwsNl run (c :: rest) a c hP1 ha rfl
        unfold badHwsNl at hbound
        rw [hahws] at hbound
        have hcnl : (c == '\n') = false := by simpa using hbound
        unfold badHwsNl
        rw [hd', hcnl]
        simp

/-! `trim`: preserves all window properties and produces clean ends. -/

theorem dropWhile_is_suffix (p : Char → Bool) :
    ∀ (l : Str), ∃ t, t ++ l.dropWhile p = l := by
  intro l
  induction l with
  | nil => exact ⟨[], rfl⟩
  | cons a l2 ih =>
    by_cases ha : p a
    · obtain ⟨t, ht⟩ := ih
      refine ⟨a :: t, ?_⟩
      rw [List.dropWhile_cons, ha]
      simp only [if_true, List.cons_append, ht]
    · refine ⟨[], ?_⟩
      rw [List.dropWhile_cons, if_neg (by simpa using ha)]
      rfl

theorem trim_mid (s : Str) : ∃ pre post, s = pre ++ (trim s ++ post) := by
  obtain ⟨pre, hpre⟩ := dropWhile_is_suffix isJsWs s
  obtain ⟨t, ht⟩ := dropWhile_is_suffix isJsWs (s.dropWhile isJsWs).reverse
  refine ⟨pre, t.reverse, ?_⟩
  have hlt : s.dropWhile isJsWs = trim s ++ t.reverse := by
    have h2 := congrArg List.reverse ht
    rw [List.reverse_append, List.reverse_reverse] at h2
    exact h2.symm
  rw [← hlt, hpre]

theorem np_trim (bad : Char → Char → Bool) (s : Str)
    (h : noPair bad s = true) : noPair bad (trim s) = true := by
  obtain ⟨pre, post, hdec⟩ := trim_mid s
  rw [hdec] at h
  exact np_append_left bad _ post (np_append_right bad pre _ h)

theorem nt_trim (bad : Char → Char → Char → Bool) (s : Str)
    (h : noTriple bad s = true) : noTriple bad (trim s) = true := by
  obtain ⟨pre, post, hdec⟩ := trim_mid s
  rw [hdec] at h
  exact nt_append_left bad _ post (nt_append_right bad pre _ h)

theorem head_dropWhile_not (p : Char → Bool) :
    ∀ (l : Str) (c : Char), (l.dropWhile p).head? = some c → p c = false := by
  intro l
  induction l with
  | nil => intro c h; simp at h
  | cons a l2 ih =>
    intro c h
    rw [List.dropWhile_cons] at h
    by_cases ha : p a
    · rw [if_pos (by simpa using ha)] at h
      exact ih c h
    · rw [if_neg (by simpa using ha)] at h
      have : a = c := by simpa using h
      rw [Bool.not_eq_true] at ha
      exact this ▸ ha

theorem trim_trimmedEnds (s : Str) : trimmedEnds (trim s) = true := by
  unfold trimmedEnds
  rw [Bool.and_eq_true]
  constructor
  · cases hh : (trim s).head? with
    | none => simp [hh]
    | some c =>
      simp only [hh]
      -- the head of the trim is the head of the left-trimmed list
      obtain ⟨t, ht⟩ := dropWhile_is_suffix isJsWs (s.dropWhile isJsWs).reverse
      have hlt : s.dropWhile isJsWs = trim s ++ t.reverse := by
        have h2 := congrArg List.reverse ht
        rw [List.reverse_append, List.reverse_reverse] at h2
        exact h2.symm
      have hhead : (s.dropWhile isJsWs).head? = some c := by
        rw [hlt]
        cases htr : trim s with
        | nil => rw [htr] at hh; simp at hh
        | cons a ts =>
          rw [htr] at hh
          have : a = c := by simpa using hh
          rw [this]
          rfl
      rw [head_dropWhile_not isJsWs s c hhead]
      rfl
  · cases hh : (trim s).getLast? with
    | none => simp [hh]
    | some c =>
      simp only [hh]
      have hrt : (trim s).getLast? = ((s.dropWhile isJsWs).reverse.dropWhile isJsWs).head? := by
        unfold trim
        rw [List.getLast?_reverse]
      rw [hh] at hrt
      rw [head_dropWhile_not isJsWs _ c hrt.symm]
      rfl

/-! Assembly: the normalizer maps carriage-return-free input to normal form,
and is the identity on normal forms. -/

theorem normalize_normalForm (s : Str) (hR : ∀ c ∈ s, c ≠ '\r') :
    isNormalForm (normalizeWhitespace s) = true := by
  unfold normalizeWhitespace
  rw [crlf_id s hR]
  have hR1 : ∀ c ∈ stripWsNl s, c ≠ '\r' := fun c hc => hR c (mem_stripWsNl s c hc)
  have hP1_1 : noPair badHwsNl (stripWsNl s) = true := stripWsNl_no_hws_nl s
  have hR2 : ∀ c ∈ collapseNls (stripWsNl s), c ≠ '\r' := by
    intro c hc
    rcases mem_collapseNlsAux (stripWsNl s) 0 c hc with h | h
    · rw [h]; decide
    · exact hR1 c h
  have hP1_2 := collapseNls_pres_hwsnl (stripWsNl s) hP1_1
  have hP3_2 := collapseNls_noNl3 (stripWsNl s)
  have hR3 : ∀ c ∈ collapseHws (collapseNls (stripWsNl s)), c ≠ '\r' := by
    intro c hc
    rcases mem_collapseHwsAux (collapseNls (stripWsNl s)) [] c hc with h | h | h
    · rw [h]; decide
    · simp at h
    · exact hR2 c h
  have hP1_3 : noPair badHwsNl (collapseHws (collapseNls (stripWsNl s))) = true :=
    collapseHwsAux_pres_hwsnl (collapseNls (stripWsNl s)) [] (by simp)
      (by simpa using hP1_2)
  have hP3_3 : noTriple badNl3 (collapseHws (collapseNls (stripWsNl s))) = true :=
    collapseHwsAux_pres_nl3 (collapseNls (stripWsNl s)) [] (by simp) hP3_2
  have hP2_3 : noPair badHws2 (collapseHws (collapseNls (stripWsNl s))) = true :=
    collapseHwsAux_noHws2 (collapseNls (stripWsNl s)) [] (by simp)
  unfold isNormalForm
  rw [Bool.and_eq_true, Bool.and_eq_true, Bool.and_eq_true, Bool.and_eq_true]
  refine ⟨⟨⟨⟨?_, ?_⟩, ?_⟩, ?_⟩, ?_⟩
  · rw [List.all_eq_true]
    intro c hc
    have := hR3 c (mem_trim _ c hc)
    simpa using this
  · exact np_trim badHwsNl _ hP1_3
  · exact np_trim badHws2 _ hP2_3
  · exact nt_trim badNl3 _ hP3_3
  · exact trim_trimmedEnds _

theorem normalize_fixpoint (t : Str) (h : isNormalForm t = true) :
    normalizeWhitespace t = t := by
  unfold isNormalForm at h
  rw [Bool.and_eq_true, Bool.and_eq_true, Bool.and_eq_true, Bool.and_eq_true] at h
  obtain ⟨⟨⟨⟨hR, hP1⟩, hP2⟩, hP3⟩, hE⟩ := h
  have hR' : ∀ c ∈ t, c ≠ '\r' := by
    intro c hc
    have := List.all_eq_true.mp hR c hc
    simpa using this
  unfold normalizeWhitespace
  rw [crlf_id t hR', stripWsNl_id t hP1 hP2, collapseNls_id t hP3,
    collapseHws_id t hP2, trim_id t hE]

/-! The C5 statements. -/

/-- C5 counterexample: `normalize` is not idempotent on `"a\r \nb"` — the
first pass leaves the bare carriage return, the second pass removes the
`"\r\n"` that the whitespace-before-newline pass created. -/
theorem normalize_not_idempotent_counterexample :
    normalizeWhitespace (normalizeWhitespace cex5) ≠ normalizeWhitespace cex5 := by
  decide

/-- C5 (amended): the text normalizer is idempotent on every string that
contains no carriage-return character (in particular on all LF-only text, and
text whose every `\r` is directly followed by `\n` normalizes to such a
string), and empty input yields the empty string; full idempotence fails only
for strings with a carriage return separated from a later newline by
horizontal whitespace. -/
theorem normalize_idempotent_no_cr :
    (∀ s : Str, (∀ c ∈ s, c ≠ '\r') →
      normalizeWhitespace (normalizeWhitespace s) = normalizeWhitespace s) ∧
    normalizeWhitespace [] = [] := by
  refine ⟨?_, rfl⟩
  intro s hs
  exact normalize_fixpoint _ (normalize_normalForm s hs)

/-- Witness for `normalize_idempotent_no_cr` at a concrete string with runs
of blank lines, doubled spaces and trailing whitespace. -/
theorem normalize_idempotent_no_cr_witness :
    normalizeWhitespace (normalizeWhitespace (( "a \n\n\n  b " ).toList)) =
      normalizeWhitespace (( "a \n\n\n  b " ).toList) :=
  normalize_idempotent_no_cr.1 _ (by decide)

end Albabot
